import Mathlib

/-!
Verification development for the rlox expression pipeline
(lexer → Pratt parser → bytecode compiler → stack VM).

Shallow embedding conventions:
* Rust `f64` values are modelled exactly as unnormalized integer fractions
  (`NumVal`): every arithmetic operation the program performs (+, -, *, /,
  negation) is mirrored literally on numerator/denominator pairs, so two
  runs that perform the same operations in the same order produce equal
  values.  The claims under test concern operand order, instruction
  structure and error paths, not floating-point rounding.
* Rust panics (`todo!()`, `unwrap()` on `None`, out-of-bounds `Vec`
  indexing) are modelled by the `Crash` outcomes of the `Res` result type,
  kept distinct from the program's own error enums.
* Recursion that Rust expresses as loops or unbounded recursion is given a
  fuel parameter; the public wrappers instantiate the fuel with a bound
  derived from the input size.  Fuel exhaustion is a distinct `Crash`
  outcome, so it can never be mistaken for a source-level result.
* The source's f32 binding powers (10.1, 10.0), (9.1, 9.0), (8.1, 11.0),
  (7.1, 7.0) are scaled by 10 to the naturals 101, 100, 91, 90, 81, 110,
  71, 70.  All comparisons the parser performs are between these constants
  and 0; the values are exact multiples of 0.1 lying well apart, so f32
  rounding (≤ 1e-5 here) never changes a comparison and the scaling is
  order-faithful.
-/

/-- Rust panic outcomes: `todo!()`, `Option::unwrap` on `None`,
out-of-bounds slice/`Vec` indexing, and exhaustion of the embedding's
fuel (never a source-level behaviour). -/
inductive Crash where
  | todoUnreachable
  | unwrapNone
  | indexOOB
  | outOfFuel
deriving DecidableEq, Repr

/-- Result of running embedded Rust code: `Ok`, `Err e`, or a panic. -/
inductive Res (ε : Type) (α : Type) where
  | ok : α → Res ε α
  | err : ε → Res ε α
  | crash : Crash → Res ε α
deriving DecidableEq, Repr

/-- Exact model of an `f64` value: an unnormalized fraction.  Arithmetic
mirrors the rational operations the program performs; see the header
comment for why this is faithful for the claims at hand. -/
structure NumVal where
  num : Int
  den : Int
deriving DecidableEq, Repr

def NumVal.add (a b : NumVal) : NumVal := ⟨a.num * b.den + b.num * a.den, a.den * b.den⟩

def NumVal.sub (a b : NumVal) : NumVal := ⟨a.num * b.den - b.num * a.den, a.den * b.den⟩

def NumVal.mul (a b : NumVal) : NumVal := ⟨a.num * b.num, a.den * b.den⟩

def NumVal.div (a b : NumVal) : NumVal := ⟨a.num * b.den, a.den * b.num⟩

def NumVal.neg (a : NumVal) : NumVal := ⟨-a.num, a.den⟩

/-- Model of Rust's `f64::to_string` for the values the claims exercise:
an integral value prints as its integer part (`7.0.to_string() = "7"`). -/
def NumVal.toStr (a : NumVal) : String :=
  if a.den = 1 then toString a.num else toString a.num ++ "/" ++ toString a.den

/-- `TokenMeta` from src/lexer.rs: source position of a token. -/
structure TokenMeta where
  row : Nat
  col : Nat
deriving DecidableEq, Repr

/-- `DelimToken` from src/lexer.rs. -/
inductive DelimToken where
  | Semicolon
  | EoF
deriving DecidableEq, Repr

/-- `OpToken` from src/lexer.rs. -/
inductive OpToken where
  | LeftParen
  | RightParen
  | Plus
  | Min
  | Slash
  | Star
  | Eq
deriving DecidableEq, Repr

/-- `AtomToken` from src/lexer.rs. -/
inductive AtomToken where
  | NumericLit
  | Identifier
deriving DecidableEq, Repr

/-- `KeywordToken` from src/lexer.rs. -/
inductive KeywordToken where
  | Let
deriving DecidableEq, Repr

/-- `TokenClass` from src/lexer.rs. -/
inductive TokenClass where
  | Delim : DelimToken → TokenClass
  | Op : OpToken → TokenClass
  | Atom : AtomToken → TokenClass
  | Keyword : KeywordToken → TokenClass
deriving DecidableEq, Repr

/-- `LexerError` from src/lexer.rs. -/
inductive LexerError where
  | UnexpectedEndOfFile : TokenMeta → LexerError
  | UnexpectedCharacter : String → TokenMeta → LexerError
  | InvalidNumericLit : String → TokenMeta → LexerError
deriving DecidableEq, Repr

/-- `Token` from src/lexer.rs. -/
structure Token where
  token_class : TokenClass
  lexeme : String
  meta : TokenMeta
deriving DecidableEq, Repr

/-- The mutable scanning state of `Lexer` (src/lexer.rs): accumulated
tokens, byte position, and current row/column.  The input string is
passed separately as a character list (the source is byte-indexed; all
inputs of interest are ASCII, where the two indexings agree). -/
structure LexState where
  tokens : List Token
  pos : Nat
  row : Nat
  col : Nat
deriving DecidableEq, Repr

/-- `Lexer::push_token`. -/
def push_token (st : LexState) (tc : TokenClass) (lexeme : String) : LexState :=
  { st with tokens := st.tokens ++ [⟨tc, lexeme, ⟨st.row, st.col⟩⟩] }

/-- `Lexer::advance`. -/
def lexAdvance (st : LexState) (by_ : Nat) : LexState :=
  { st with pos := st.pos + by_, col := st.col + by_ }

/-- `Lexer::new_line`. -/
def new_line (st : LexState) : LexState :=
  { st with pos := st.pos + 1, row := st.row + 1, col := 0 }

/-- `Lexer::create_unexpected_char_err`. -/
def create_unexpected_char_err (st : LexState) (lexeme : String) : LexerError :=
  .UnexpectedCharacter lexeme ⟨st.row, st.col⟩

/-- `Lexer::scan_delimiter`. -/
def scan_delimiter (st : LexState) (lexeme : String) : Res LexerError LexState :=
  if lexeme = ";" then
    .ok (lexAdvance (push_token st (.Delim .Semicolon) lexeme) lexeme.length)
  else .err (create_unexpected_char_err st lexeme)

/-- `Lexer::scan_op`. -/
def scan_op (st : LexState) (lexeme : String) : Res LexerError LexState :=
  if lexeme = "(" then
    .ok (lexAdvance (push_token st (.Op .LeftParen) lexeme) lexeme.length)
  else if lexeme = ")" then
    .ok (lexAdvance (push_token st (.Op .RightParen) lexeme) lexeme.length)
  else if lexeme = "=" then
    .ok (lexAdvance (push_token st (.Op .Eq) lexeme) lexeme.length)
  else .err (create_unexpected_char_err st lexeme)

/-- `Lexer::scan_binary_op`. -/
def scan_binary_op (st : LexState) (lexeme : String) : Res LexerError LexState :=
  if lexeme = "+" then
    .ok (lexAdvance (push_token st (.Op .Plus) lexeme) lexeme.length)
  else if lexeme = "-" then
    .ok (lexAdvance (push_token st (.Op .Min) lexeme) lexeme.length)
  else if lexeme = "/" then
    .ok (lexAdvance (push_token st (.Op .Slash) lexeme) lexeme.length)
  else if lexeme = "*" then
    .ok (lexAdvance (push_token st (.Op .Star) lexeme) lexeme.length)
  else .err (create_unexpected_char_err st lexeme)

/-- The scanning loop of `Lexer::scan_num_lit`: starting from index `e`
(the source starts at `pos + 1`), extend over digits and at most one
`'.'`; a second dot is `InvalidNumericLit`.  Returns the exclusive end
index of the literal. -/
def numEndLoop (input : List Char) (fuel : Nat) (e : Nat) (is_float : Bool)
    (row col : Nat) : Res LexerError Nat :=
  if e < input.length then
    match fuel with
    | 0 => .crash .outOfFuel
    | n + 1 =>
      match input[e]? with
      | none => .err (.UnexpectedEndOfFile ⟨row, col⟩)
      | some c =>
        if c.isDigit then numEndLoop input n (e + 1) is_float row col
        else if c = '.' then
          if is_float then .err (.InvalidNumericLit "." ⟨row, col⟩)
          else numEndLoop input n (e + 1) true row col
        else .ok e
  else .ok e

/-- `Lexer::scan_num_lit`. -/
def scan_num_lit (input : List Char) (st : LexState) : Res LexerError LexState :=
  match numEndLoop input (input.length + 1) (st.pos + 1) false st.row st.col with
  | .err e => .err e
  | .crash p => .crash p
  | .ok e =>
    let lexeme := String.mk ((input.drop st.pos).take (e - st.pos))
    .ok (lexAdvance (push_token st (.Atom .NumericLit) lexeme) (e - st.pos))

/-- The scanning loop of `Lexer::scan_identifier`: extend until a space
or the end of input (only `' '` terminates an identifier). -/
def idEndLoop (input : List Char) (fuel : Nat) (e : Nat) : Res LexerError Nat :=
  if e < input.length then
    match fuel with
    | 0 => .crash .outOfFuel
    | n + 1 =>
      match input[e]? with
      | none => .err (.UnexpectedEndOfFile ⟨0, 0⟩)
      | some c => if c = ' ' then .ok e else idEndLoop input n (e + 1)
  else .ok e

/-- `Lexer::scan_identifier`. -/
def scan_identifier (input : List Char) (st : LexState) : Res LexerError LexState :=
  match idEndLoop input (input.length + 1) (st.pos + 1) with
  | .err e => .err e
  | .crash p => .crash p
  | .ok e =>
    let lexeme := String.mk ((input.drop st.pos).take (e - st.pos))
    .ok (lexAdvance (push_token st (.Atom .Identifier) lexeme) (e - st.pos))

/-- `Lexer::scan_keyword`: the literal run `"let"` becomes the keyword
token, anything else falls through to `scan_identifier`.  (Dead code in
the source: `Lexer::tokenize` never dispatches to it.) -/
def scan_keyword (input : List Char) (st : LexState) : Res LexerError LexState :=
  match input[st.pos]? with
  | none => .err (.UnexpectedEndOfFile ⟨st.row, st.col⟩)
  | some c =>
    if c = 'l' ∧ (input.drop st.pos).take 3 = ['l', 'e', 't'] then
      .ok (lexAdvance (push_token st (.Keyword .Let) "let") 3)
    else scan_identifier input st

/-- The scanning loop of `Lexer::tokenize`: dispatch on the character at
the current position exactly as the source `match` does.  Note the
dispatch has no arm for identifiers, keywords or `'='`; those characters
fall to the final unexpected-character error. -/
def tokenizeLoop (input : List Char) (fuel : Nat) (st : LexState) :
    Res LexerError (List Token) :=
  if st.pos < input.length then
    match fuel with
    | 0 => .crash .outOfFuel
    | n + 1 =>
      match input[st.pos]? with
      | none => .err (.UnexpectedEndOfFile ⟨st.row, st.col⟩)
      | some c =>
        if c = ' ' then tokenizeLoop input n (lexAdvance st 1)
        else if c = '\n' then tokenizeLoop input n (new_line st)
        else if c = ';' then
          match scan_delimiter st (String.mk [c]) with
          | .ok st' => tokenizeLoop input n st'
          | .err e => .err e
          | .crash p => .crash p
        else if c = '(' ∨ c = ')' then
          match scan_op st (String.mk [c]) with
          | .ok st' => tokenizeLoop input n st'
          | .err e => .err e
          | .crash p => .crash p
        else if c = '+' ∨ c = '-' ∨ c = '/' ∨ c = '*' then
          match scan_binary_op st (String.mk [c]) with
          | .ok st' => tokenizeLoop input n st'
          | .err e => .err e
          | .crash p => .crash p
        else if c.isDigit then
          match scan_num_lit input st with
          | .ok st' => tokenizeLoop input n st'
          | .err e => .err e
          | .crash p => .crash p
        else .err (create_unexpected_char_err st (String.mk [c]))
  else .ok (st.tokens ++ [⟨.Delim .EoF, "", ⟨st.row, st.col⟩⟩])

/-- `Lexer::tokenize`: scan the whole input, then append the synthesized
end-of-input token. -/
def tokenize (input : String) : Res LexerError (List Token) :=
  tokenizeLoop input.data (input.data.length + 1) ⟨[], 0, 0, 0⟩

/-- `ParserError` from src/parser/ast.rs. -/
inductive ParserError where
  | UnexpectedEndOfTokenStream
  | ExpectedEoF : Token → ParserError
  | ExpectedExpression : Token → ParserError
  | ExpectedOpToken : Token → ParserError
  | UnclosedExpression : Token → ParserError
  | UnexpectedToken : Token → Option TokenClass → ParserError
  | UnexpectedUnaryOperator : Token → ParserError
  | UnhandledToken : Token → ParserError
deriving DecidableEq, Repr

/-- `AstNode` from src/parser/ast.rs; `f64` literal values are modelled
by `NumVal`. -/
inductive AstNode where
  | Empty
  | Stmt : Token → AstNode → AstNode
  | VariableAssignmentStmt : Token → String → AstNode → AstNode
  | Expr : Token → AstNode → AstNode
  | BinaryExpr : Token → AstNode → AstNode → AstNode
  | UnaryExpr : Token → AstNode → AstNode
  | NumericLit : Token → NumVal → AstNode
  | VariableAccessExpr : Token → String → AstNode
deriving DecidableEq, Repr

/-- `infix_bp` from src/parser/parser.rs, with the f32 binding powers
scaled by 10 (see the header comment): star (10.1, 10.0), slash
(9.1, 9.0), minus (8.1, 11.0), plus (7.1, 7.0). -/
def infixBp (op : OpToken) : Option (Nat × Nat) :=
  match op with
  | .Star => some (101, 100)
  | .Slash => some (91, 90)
  | .Min => some (81, 110)
  | .Plus => some (71, 70)
  | _ => none

/-- The numeric-literal parse `token.lexeme.parse::<f64>().unwrap()` in
`Parser::parse_numeric_lit`: a digit run, optionally with one dot.
Returns `none` (i.e. panics at the call site) on anything `f64::from_str`
rejects among the lexeme shapes the lexer can produce. -/
def parseNumLexeme (s : String) : Option NumVal :=
  let l := s.data
  let intPart := l.takeWhile Char.isDigit
  let rest := l.dropWhile Char.isDigit
  let natOf (ds : List Char) : Int := ds.foldl (fun a c => 10 * a + (c.toNat - 48)) 0
  match rest with
  | [] => if l = [] then none else some ⟨natOf intPart, 1⟩
  | '.' :: frac =>
    if frac.all Char.isDigit ∧ (intPart ≠ [] ∨ frac ≠ []) then
      some ⟨natOf intPart * (10 ^ frac.length : Nat) + natOf frac, (10 ^ frac.length : Nat)⟩
    else none
  | _ => none

/-- Which of the four mutually recursive expression-parsing routines of
src/parser/parser.rs is being run: `Parser::parse_expr`'s primary
dispatch, the precedence-climbing `loop` inside `parse_expr`,
`Parser::parse_unary_expr`, or `Parser::parse_nested_expr`.  They are
combined into the single fuel-recursive `parseGo` (mutual recursion does
not reduce in the kernel); the named wrappers below restore the source's
shape. -/
inductive PCall where
  | expr : Nat → PCall
  | loop : Nat → AstNode → PCall
  | unary : Token → PCall
  | nested : Token → PCall

/-- The combined body of `Parser::parse_expr` / its loop /
`Parser::parse_unary_expr` / `Parser::parse_nested_expr`, selected by
the `PCall` tag; `pos` is the parser's cursor and each call returns the
node together with the cursor after it.
* `.expr minBp`: consume the primary at `pos` (numeric literal,
  identifier, unary minus, or parenthesized expression; other operators
  are `UnexpectedUnaryOperator`, other classes `UnexpectedToken`), then
  enter the loop.
* `.loop minBp lhs`: peek the next operator; stop on a delimiter or an
  operator without binding power or with left binding power below
  `minBp`; otherwise consume it, parse the right operand at its right
  binding power, and fold a `BinaryExpr`.
* `.unary token`: parse the operand at the right binding power of the
  operator (`infix_bp(op).unwrap()`).
* `.nested token`: parse the inner expression, then demand a
  right-paren; otherwise `UnclosedExpression` referencing the opening
  left-paren `token`. -/
def parseGo (ts : List Token) : Nat → Nat → PCall → Res ParserError (AstNode × Nat)
  | 0, _, _ => .crash .outOfFuel
  | n + 1, pos, .expr minBp =>
    match ts[pos]? with
    | none => .err .UnexpectedEndOfTokenStream
    | some lhsToken =>
      let lhsRes : Res ParserError (AstNode × Nat) :=
        match lhsToken.token_class with
        | .Atom .NumericLit =>
          match parseNumLexeme lhsToken.lexeme with
          | none => .crash .unwrapNone
          | some v => .ok (.NumericLit lhsToken v, pos + 1)
        | .Atom .Identifier => .ok (.VariableAccessExpr lhsToken lhsToken.lexeme, pos + 1)
        | .Op .Min => parseGo ts n (pos + 1) (.unary lhsToken)
        | .Op .LeftParen => parseGo ts n (pos + 1) (.nested lhsToken)
        | .Op _ => .err (.UnexpectedUnaryOperator lhsToken)
        | _ => .err (.UnexpectedToken lhsToken none)
      match lhsRes with
      | .err e => .err e
      | .crash p => .crash p
      | .ok (lhs, pos') => parseGo ts n pos' (.loop minBp lhs)
  | n + 1, pos, .loop minBp lhs =>
    match ts[pos]? with
    | none => .err .UnexpectedEndOfTokenStream
    | some opToken =>
      match opToken.token_class with
      | .Delim _ => .ok (lhs, pos)
      | .Op op =>
        match infixBp op with
        | none => .ok (lhs, pos)
        | some (lBp, rBp) =>
          if lBp < minBp then .ok (lhs, pos)
          else
            match parseGo ts n (pos + 1) (.expr rBp) with
            | .err e => .err e
            | .crash p => .crash p
            | .ok (rhs, pos2) => parseGo ts n pos2 (.loop minBp (.BinaryExpr opToken lhs rhs))
      | _ => .err (.ExpectedOpToken opToken)
  | n + 1, pos, .unary token =>
    match token.token_class with
    | .Op op =>
      match infixBp op with
      | none => .crash .unwrapNone
      | some (_, rightBp) =>
        match parseGo ts n pos (.expr rightBp) with
        | .err e => .err e
        | .crash p => .crash p
        | .ok (operand, pos') => .ok (.UnaryExpr token operand, pos')
    | _ => .err (.ExpectedOpToken token)
  | n + 1, pos, .nested token =>
    match parseGo ts n pos (.expr 0) with
    | .err e => .err e
    | .crash p => .crash p
    | .ok (inner, pos') =>
      match ts[pos']? with
      | none => .err .UnexpectedEndOfTokenStream
      | some endToken =>
        if endToken.token_class = .Op .RightParen then
          .ok (.Expr token inner, pos' + 1)
        else .err (.UnclosedExpression token)

/-- `Parser::parse_expr`, fuel-indexed. -/
def parseExpr (fuel : Nat) (ts : List Token) (pos : Nat) (minBp : Nat) :
    Res ParserError (AstNode × Nat) :=
  parseGo ts fuel pos (.expr minBp)

/-- `Parser::parse_unary_expr`, fuel-indexed. -/
def parseUnaryExpr (fuel : Nat) (ts : List Token) (pos : Nat) (token : Token) :
    Res ParserError (AstNode × Nat) :=
  parseGo ts fuel pos (.unary token)

/-- `Parser::parse_nested_expr`, fuel-indexed. -/
def parseNestedExpr (fuel : Nat) (ts : List Token) (pos : Nat) (token : Token) :
    Res ParserError (AstNode × Nat) :=
  parseGo ts fuel pos (.nested token)

/-- `Parser::consume_expecting`. -/
def consume_expecting (ts : List Token) (pos : Nat) (expected : TokenClass) :
    Res ParserError (Token × Nat) :=
  match ts[pos]? with
  | none => .err .UnexpectedEndOfTokenStream
  | some t =>
    if t.token_class = expected then .ok (t, pos + 1)
    else .err (.UnexpectedToken t (some expected))

/-- `Parser::parse_variable_assignment_stmt`. -/
def parse_variable_assignment_stmt (fuel : Nat) (ts : List Token) (pos : Nat) :
    Res ParserError (AstNode × Nat) :=
  match consume_expecting ts pos (.Atom .Identifier) with
  | .err e => .err e
  | .crash p => .crash p
  | .ok (token, pos1) =>
    match consume_expecting ts pos1 (.Op .Eq) with
    | .err e => .err e
    | .crash p => .crash p
    | .ok (_, pos2) =>
      match parseExpr fuel ts pos2 0 with
      | .err e => .err e
      | .crash p => .crash p
      | .ok (expr, pos3) =>
        .ok (.VariableAssignmentStmt token token.lexeme expr, pos3)

/-- `Parser::parse_stmt`: only the `let` keyword is handled; any other
leading token reaching the statement path hits the source's `todo!()`,
modelled as a crash. -/
def parse_stmt (fuel : Nat) (ts : List Token) (pos : Nat) :
    Res ParserError (AstNode × Nat) :=
  match ts[pos]? with
  | none => .err .UnexpectedEndOfTokenStream
  | some token =>
    match token.token_class with
    | .Keyword .Let =>
      match parse_variable_assignment_stmt fuel ts (pos + 1) with
      | .err e => .err e
      | .crash p => .crash p
      | .ok (statement, pos') =>
        match consume_expecting ts pos' (.Delim .Semicolon) with
        | .err e => .err e
        | .crash p => .crash p
        | .ok (_, pos'') => .ok (statement, pos'')
    | _ => .crash .todoUnreachable

/-- `Parser::parse_tokens`: atoms and operators route to the expression
parser, anything else to the statement parser. -/
def parse_tokens (fuel : Nat) (ts : List Token) (pos : Nat) :
    Res ParserError (AstNode × Nat) :=
  match ts[pos]? with
  | none => .err .UnexpectedEndOfTokenStream
  | some token =>
    match token.token_class with
    | .Atom _ => parseExpr fuel ts pos 0
    | .Op _ => parseExpr fuel ts pos 0
    | _ => parse_stmt fuel ts pos

/-- `Parser::parse`: parse the program, then demand the end-of-input
token.  Fuel is instantiated from the token count (see header). -/
def parse (ts : List Token) : Res ParserError AstNode :=
  match parse_tokens (4 * ts.length + 4) ts 0 with
  | .err e => .err e
  | .crash p => .crash p
  | .ok (program, pos) =>
    match ts[pos]? with
    | none => .err .UnexpectedEndOfTokenStream
    | some token =>
      if token.token_class = .Delim .EoF then .ok program
      else .err (.ExpectedEoF token)

/-- `CompileError` from src/compiler.rs. -/
inductive CompileError where
  | UnsupportedToken
  | UnsupportedBinaryOperator
  | ExpectedOpNode
deriving DecidableEq, Repr

/-- `CompilerError` from src/compiler.rs: the failing stage of the
front-end pipeline. -/
inductive CompilerError where
  | Lexer : LexerError → CompilerError
  | Parser : ParserError → CompilerError
  | Compiler : CompileError → CompilerError
deriving DecidableEq, Repr

/-- `OpCode` from src/compiler/op_code.rs. -/
inductive OpCode where
  | Constant
  | Add
  | Subtract
  | Multiply
  | Divide
  | Negate
  | SetVar
  | GetVar
deriving DecidableEq, Repr

/-- `OpCode::to_usize` (the `repr(usize)` discriminants). -/
def OpCode.to_usize : OpCode → Nat
  | .Constant => 0
  | .Add => 1
  | .Subtract => 2
  | .Multiply => 3
  | .Divide => 4
  | .Negate => 5
  | .SetVar => 6
  | .GetVar => 7

/-- `OpCode::from_usize` from src/compiler/op_code.rs. -/
def OpCode.from_usize (byte : Nat) : Option OpCode :=
  match byte with
  | 0 => some .Constant
  | 1 => some .Add
  | 2 => some .Subtract
  | 3 => some .Multiply
  | 4 => some .Divide
  | 5 => some .Negate
  | 6 => some .SetVar
  | 7 => some .GetVar
  | _ => none

/-- `Value` from src/compiler/op_code.rs: a number or a name string. -/
inductive Value where
  | Number : NumVal → Value
  | String : String → Value
deriving DecidableEq, Repr

/-- `Chunk` from src/compiler/chunk.rs: instruction stream (opcode words
interleaved with operand indices), constant pool, and the per-instruction
provenance tokens. -/
structure Chunk where
  code : List Nat
  constants : List Value
  tokens : List Token
deriving DecidableEq, Repr

/-- `Chunk::new`. -/
def Chunk.new : Chunk := ⟨[], [], []⟩

/-- `Compiler::add_instruction`: append the opcode word and its
provenance token. -/
def add_instruction (c : Chunk) (op : OpCode) (token : Token) : Chunk :=
  { c with code := c.code ++ [op.to_usize], tokens := c.tokens ++ [token] }

/-- `Compiler::add_constant`: append the next constant-pool index as an
operand word, then append the constant itself.  (In src/compiler.rs the
pool holds bare `f64`s; the current pipeline's pool holds `Value`s, so
the pushed constant is taken as a `Value` here.) -/
def add_constant (c : Chunk) (value : Value) (token : Token) : Chunk :=
  { c with code := c.code ++ [c.constants.length],
           constants := c.constants ++ [value],
           tokens := c.tokens ++ [token] }

/-- `Compiler::compile_ast`, threading the chunk being built.  The
`Empty`, `NumericLit`, `Expr`, `UnaryExpr` and `BinaryExpr` arms are
those of src/compiler.rs.  Modelled from the spec: the
`VariableAssignmentStmt` and `VariableAccessExpr` arms follow §4.3 of
the spec (an assignment emits its value expression then a `SetVar`
instruction over the target name's string constant; a variable access
emits a `GetVar` instruction whose operand indexes a string constant
holding the name), because the compiler module the interpreter imports
(`src/compiler/compiler.rs`) is not in the source tree — only the
historical snapshot src/compiler.rs, which predates variables, is.  The
parser never produces a bare `Stmt` node and the spec gives it no
lowering; it is treated as an unrecognized shape (`UnsupportedToken`),
the spec's stated behaviour for shapes the emitter does not recognize. -/
def compile_ast (ast : AstNode) (c : Chunk) : Res CompileError Chunk :=
  match ast with
  | .Empty => .ok c
  | .NumericLit token value =>
    .ok (add_constant (add_instruction c .Constant token) (.Number value) token)
  | .Expr _ e => compile_ast e c
  | .UnaryExpr token operand =>
    match compile_ast operand c with
    | .err e => .err e
    | .crash p => .crash p
    | .ok c1 =>
      match token.token_class with
      | .Op .Min => .ok (add_instruction c1 .Negate token)
      | .Op _ => .err .UnsupportedToken
      | _ => .err .ExpectedOpNode
  | .BinaryExpr token left right =>
    match compile_ast left c with
    | .err e => .err e
    | .crash p => .crash p
    | .ok c1 =>
      match compile_ast right c1 with
      | .err e => .err e
      | .crash p => .crash p
      | .ok c2 =>
        match token.token_class with
        | .Op .Plus => .ok (add_instruction c2 .Add token)
        | .Op .Min => .ok (add_instruction c2 .Subtract token)
        | .Op .Star => .ok (add_instruction c2 .Multiply token)
        | .Op .Slash => .ok (add_instruction c2 .Divide token)
        | .Op _ => .err .UnsupportedBinaryOperator
        | _ => .err .ExpectedOpNode
  | .VariableAssignmentStmt token identifier expression =>
    match compile_ast expression c with
    | .err e => .err e
    | .crash p => .crash p
    | .ok c1 => .ok (add_constant (add_instruction c1 .SetVar token) (.String identifier) token)
  | .VariableAccessExpr token identifier =>
    .ok (add_constant (add_instruction c .GetVar token) (.String identifier) token)
  | .Stmt _ _ => .err .UnsupportedToken

/-- `Compiler::compile`: run the lexer, the parser, then lower the AST
into a fresh chunk, wrapping each stage's failure. -/
def compile (input : String) : Res CompilerError Chunk :=
  match tokenize input with
  | .err e => .err (.Lexer e)
  | .crash p => .crash p
  | .ok tokens =>
    match parse tokens with
    | .err e => .err (.Parser e)
    | .crash p => .crash p
    | .ok ast =>
      match compile_ast ast Chunk.new with
      | .err e => .err (.Compiler e)
      | .crash p => .crash p
      | .ok chunk => .ok chunk

/-- `RuntimeError` from src/interpreter.rs. -/
inductive RuntimeError where
  | InvalidOpCode : Nat → RuntimeError
  | InvalidBinaryOperator
  | IncompleteExpression
  | InvalidIdentifier
  | ExpectedOperand
  | ExpectedExpression
  | UninitialisedVariable
deriving DecidableEq, Repr

/-- `InterpreterError` from src/interpreter.rs. -/
inductive InterpreterError where
  | Compiler : CompilerError → InterpreterError
  | Runtime : RuntimeError → InterpreterError
deriving DecidableEq, Repr

/-- The VM's variable environment (`HashMap<String, Value>`), modelled
as an association list where an insert shadows prior bindings: the
observable operations (`insert`, `get`) agree with the hash map's. -/
abbrev Env : Type := List (String × Value)

/-- `HashMap::get` on the environment: the most recent binding wins. -/
def envLookup (env : Env) (name : String) : Option Value :=
  match env with
  | [] => none
  | (k, v) :: rest => if k = name then some v else envLookup rest name

/-- `HashMap::insert` on the environment: binds `name → value`,
shadowing (i.e. overwriting, as observed through `envLookup`) any prior
binding. -/
def envInsert (name : String) (value : Value) (env : Env) : Env :=
  (name, value) :: env

/-- `Interpreter::interpret_binary_op`, minus the instruction-pointer
bump: pops the right operand first, then the left operand ("pop order
flipped"), and pushes `left ∘ right`.  Returns the stack after the two
pops (and the push, on success) together with the error if any. -/
def interpret_binary_op (op : OpCode) (stack : List Value) :
    List Value × Option RuntimeError :=
  match stack with
  | .Number right :: .Number left :: rest =>
    match op with
    | .Add => (.Number (left.add right) :: rest, none)
    | .Subtract => (.Number (left.sub right) :: rest, none)
    | .Divide => (.Number (left.div right) :: rest, none)
    | .Multiply => (.Number (left.mul right) :: rest, none)
    | _ => (rest, some .InvalidBinaryOperator)
  | rest => (rest.drop 2, some .ExpectedOperand)

/-- The result of running a chunk: at most one residual value. -/
abbrev VmRes := Res RuntimeError (Option Value)

/-- The end-of-stream check of `Interpreter::interpret_chunk` (after the
`while` loop): more than one residual stack value is
`IncompleteExpression`, exactly one is the result, zero is no result. -/
def vmFinish (stack : List Value) : VmRes :=
  if 1 < stack.length then .err .IncompleteExpression
  else
    match stack with
    | [] => .ok none
    | v :: _ => .ok (some v)

/-- The `while` loop of `Interpreter::interpret_chunk`, fuel-indexed.
State is `(variables, stack, ip)`; the final state is returned alongside
the result, since the Rust fields retain their values when an error
returns.  Unchecked indexing (`chunk.code[ip + 1]`,
`chunk.constants[idx]`) is modelled by `Crash.indexOOB`; the `todo!()`
on negating a non-number by `Crash.todoUnreachable`.  The opcode read
`chunk.code[ip]` sits under the loop guard `ip < code.length`, so its
option-match `none` arm is unreachable; it is mapped to the same crash
an out-of-bounds index would raise. -/
def runVm (chunk : Chunk) (fuel : Nat) (env : Env) (stack : List Value) (ip : Nat) :
    (Env × List Value × Nat) × VmRes :=
  if ip < chunk.code.length then
    match fuel with
    | 0 => ((env, stack, ip), .crash .outOfFuel)
    | n + 1 =>
      match chunk.code[ip]? with
      | none => ((env, stack, ip), .crash .indexOOB)
      | some w =>
      match OpCode.from_usize w with
      | none => ((env, stack, ip), .err (.InvalidOpCode w))
      | some .Constant =>
        match chunk.code[ip + 1]? with
        | none => ((env, stack, ip), .crash .indexOOB)
        | some idx =>
          match chunk.constants[idx]? with
          | none => ((env, stack, ip), .crash .indexOOB)
          | some c => runVm chunk n env (c :: stack) (ip + 2)
      | some .Negate =>
        match stack with
        | [] => ((env, stack, ip), .err .ExpectedOperand)
        | .Number operand :: rest => runVm chunk n env (.Number operand.neg :: rest) (ip + 1)
        | _ :: rest => ((env, rest, ip + 1), .crash .todoUnreachable)
      | some .Add =>
        match interpret_binary_op .Add stack with
        | (stack', none) => runVm chunk n env stack' (ip + 1)
        | (stack', some e) => ((env, stack', ip), .err e)
      | some .Subtract =>
        match interpret_binary_op .Subtract stack with
        | (stack', none) => runVm chunk n env stack' (ip + 1)
        | (stack', some e) => ((env, stack', ip), .err e)
      | some .Multiply =>
        match interpret_binary_op .Multiply stack with
        | (stack', none) => runVm chunk n env stack' (ip + 1)
        | (stack', some e) => ((env, stack', ip), .err e)
      | some .Divide =>
        match interpret_binary_op .Divide stack with
        | (stack', none) => runVm chunk n env stack' (ip + 1)
        | (stack', some e) => ((env, stack', ip), .err e)
      | some .SetVar =>
        match chunk.code[ip + 1]? with
        | none => ((env, stack, ip), .crash .indexOOB)
        | some idx =>
          match chunk.constants[idx]? with
          | none => ((env, stack, ip), .crash .indexOOB)
          | some (.String varName) =>
            match stack with
            | [] => ((env, stack, ip), .err .ExpectedExpression)
            | exprValue :: rest => runVm chunk n (envInsert varName exprValue env) rest (ip + 2)
          | some _ => ((env, stack, ip), .err .InvalidIdentifier)
      | some .GetVar =>
        match chunk.code[ip + 1]? with
        | none => ((env, stack, ip), .crash .indexOOB)
        | some idx =>
          match chunk.constants[idx]? with
          | none => ((env, stack, ip), .crash .indexOOB)
          | some (.String varName) =>
            match envLookup env varName with
            | some value => runVm chunk n env (value :: stack) (ip + 2)
            | none => ((env, stack, ip), .err .UninitialisedVariable)
          | some _ => ((env, stack, ip), .err .InvalidIdentifier)
  else ((env, stack, ip), vmFinish stack)

/-- The persistent fields of `Interpreter` (src/interpreter.rs): the
variable environment (the source's `variables` field — that name is a
reserved command in Lean, hence `vars`), the operand stack, and the
instruction pointer. -/
structure IState where
  vars : Env
  stack : List Value
  ip : Nat
deriving DecidableEq, Repr

/-- `Interpreter::new`. -/
def IState.new : IState := ⟨[], [], 0⟩

/-- `Interpreter::interpret_chunk`: clears the operand stack, resets the
instruction pointer to zero, and runs the instruction stream against the
persistent variable environment.  The fuel bound `code.length + 1`
suffices because every step advances `ip` by at least one. -/
def interpret_chunk (chunk : Chunk) (st : IState) : IState × VmRes :=
  match runVm chunk (chunk.code.length + 1) st.vars [] 0 with
  | ((env, stack, ip), r) => (⟨env, stack, ip⟩, r)

/-- The result formatting of `Interpreter::interpret` (lines 51-55):
a number renders via `to_string`, no value renders as the empty string,
and a residual string value hits the source's `todo!()`. -/
def interpret_result (r : Option Value) : Res InterpreterError String :=
  match r with
  | some (.Number result) => .ok result.toStr
  | none => .ok ""
  | some (.String _) => .crash .todoUnreachable

/-- `Interpreter::interpret`: compile the input, execute the chunk, and
format the outcome, wrapping stage errors. -/
def interpret (input : String) (st : IState) : IState × Res InterpreterError String :=
  match compile input with
  | .err e => (st, .err (.Compiler e))
  | .crash p => (st, .crash p)
  | .ok chunk =>
    match interpret_chunk chunk st with
    | (st', .ok r) => (st', interpret_result r)
    | (st', .err e) => (st', .err (.Runtime e))
    | (st', .crash p) => (st', .crash p)

/-- Spec-side tree evaluation (the reference semantics of claim C1):
numeric literals evaluate to their values, unary minus to arithmetic
negation, parenthesized nodes transparently, and binary nodes to the
left operand combined with the right operand under +, -, *, /.  Nodes
outside that expression fragment have no direct evaluation. -/
def treeEval : AstNode → Option NumVal
  | .NumericLit _ v => some v
  | .Expr _ e => treeEval e
  | .UnaryExpr t e =>
    match t.token_class, treeEval e with
    | .Op .Min, some v => some v.neg
    | _, _ => none
  | .BinaryExpr t l r =>
    match t.token_class, treeEval l, treeEval r with
    | .Op .Plus, some a, some b => some (a.add b)
    | .Op .Min, some a, some b => some (a.sub b)
    | .Op .Star, some a, some b => some (a.mul b)
    | .Op .Slash, some a, some b => some (a.div b)
    | _, _, _ => none
  | _ => none

/-- The expression fragment of the AST: exactly the shapes the Pratt
expression parser can build from numeric-literal and operator tokens. -/
inductive ExprAst : AstNode → Prop where
  | num : ∀ t v, ExprAst (.NumericLit t v)
  | paren : ∀ t e, ExprAst e → ExprAst (.Expr t e)
  | unary : ∀ t e, t.token_class = .Op .Min → ExprAst e → ExprAst (.UnaryExpr t e)
  | plus : ∀ t l r, t.token_class = .Op .Plus → ExprAst l → ExprAst r →
      ExprAst (.BinaryExpr t l r)
  | minus : ∀ t l r, t.token_class = .Op .Min → ExprAst l → ExprAst r →
      ExprAst (.BinaryExpr t l r)
  | star : ∀ t l r, t.token_class = .Op .Star → ExprAst l → ExprAst r →
      ExprAst (.BinaryExpr t l r)
  | slash : ∀ t l r, t.token_class = .Op .Slash → ExprAst l → ExprAst r →
      ExprAst (.BinaryExpr t l r)

/-- Structural-recursion twin of `runVm` used for reasoning: it consumes
the instruction stream as a list (the suffix of the code from the
current instruction pointer) instead of tracking an index.  The bytecode
has no jumps, so the two agree (`runVm_eq_runList`). -/
def runList (consts : List Value) : List Nat → Env → List Value → VmRes
  | [], _, stack => vmFinish stack
  | w :: rest, env, stack =>
    match OpCode.from_usize w, rest with
    | none, _ => .err (.InvalidOpCode w)
    | some .Constant, [] => .crash .indexOOB
    | some .Constant, idx :: rest' =>
      match consts[idx]? with
      | none => .crash .indexOOB
      | some c => runList consts rest' env (c :: stack)
    | some .Negate, rest =>
      match stack with
      | [] => .err .ExpectedOperand
      | .Number operand :: s => runList consts rest env (.Number operand.neg :: s)
      | _ :: _ => .crash .todoUnreachable
    | some .Add, rest =>
      match interpret_binary_op .Add stack with
      | (stack', none) => runList consts rest env stack'
      | (_, some e) => .err e
    | some .Subtract, rest =>
      match interpret_binary_op .Subtract stack with
      | (stack', none) => runList consts rest env stack'
      | (_, some e) => .err e
    | some .Multiply, rest =>
      match interpret_binary_op .Multiply stack with
      | (stack', none) => runList consts rest env stack'
      | (_, some e) => .err e
    | some .Divide, rest =>
      match interpret_binary_op .Divide stack with
      | (stack', none) => runList consts rest env stack'
      | (_, some e) => .err e
    | some .SetVar, [] => .crash .indexOOB
    | some .SetVar, idx :: rest' =>
      match consts[idx]? with
      | none => .crash .indexOOB
      | some (.String varName) =>
        match stack with
        | [] => .err .ExpectedExpression
        | v :: s => runList consts rest' (envInsert varName v env) s
      | some _ => .err .InvalidIdentifier
    | some .GetVar, [] => .crash .indexOOB
    | some .GetVar, idx :: rest' =>
      match consts[idx]? with
      | none => .crash .indexOOB
      | some (.String varName) =>
        match envLookup env varName with
        | some value => runList consts rest' env (value :: stack)
        | none => .err .UninitialisedVariable
      | some _ => .err .InvalidIdentifier

/-- Well-formedness of an instruction stream against a constant pool of
`nc` entries, decoded sequentially: every `Constant`/`SetVar`/`GetVar`
opcode is immediately followed by exactly one operand word that is a
valid constant-pool index, the operand-free opcodes (`Add`, `Subtract`,
`Multiply`, `Divide`, `Negate`) stand alone, and the stream never ends
between an opcode and its operand. -/
inductive CodeWF (nc : Nat) : List Nat → Prop where
  | nil : CodeWF nc []
  | constant : ∀ idx rest, idx < nc → CodeWF nc rest → CodeWF nc (0 :: idx :: rest)
  | simple : ∀ w rest, w = 1 ∨ w = 2 ∨ w = 3 ∨ w = 4 ∨ w = 5 → CodeWF nc rest →
      CodeWF nc (w :: rest)
  | setvar : ∀ idx rest, idx < nc → CodeWF nc rest → CodeWF nc (6 :: idx :: rest)
  | getvar : ∀ idx rest, idx < nc → CodeWF nc rest → CodeWF nc (7 :: idx :: rest)

/-- From a decomposition of the code suffix at `ip`, the word at `ip`. -/
lemma drop_cons_getElem? {l : List Nat} {n x : Nat} {xs : List Nat}
    (h : l.drop n = x :: xs) : l[n]? = some x := by
  have h0 := List.getElem?_drop l n 0
  rw [h] at h0
  simpa using h0.symm

/-- From a decomposition of the code suffix at `ip`, the word at `ip+1`. -/
lemma drop_cons_getElem?_succ {l : List Nat} {n x y : Nat} {xs : List Nat}
    (h : l.drop n = x :: y :: xs) : l[n + 1]? = some y := by
  have h1 := List.getElem?_drop l n 1
  rw [h] at h1
  simpa using h1.symm

/-- A nonempty code suffix means the instruction pointer is in bounds. -/
lemma drop_cons_lt_length {l : List Nat} {n x : Nat} {xs : List Nat}
    (h : l.drop n = x :: xs) : n < l.length := by
  by_contra hn
  rw [List.drop_eq_nil_of_le (Nat.le_of_not_lt hn)] at h
  exact List.noConfusion h

/-- Dropping one more element of a decomposed suffix. -/
lemma drop_succ_of_drop_cons {l : List Nat} {n x : Nat} {xs : List Nat}
    (h : l.drop n = x :: xs) : l.drop (n + 1) = xs := by
  have : l.drop (n + 1) = (l.drop n).drop 1 := by
    rw [List.drop_drop]
  rw [this, h]
  rfl

/-- A decoded opcode determines its word. -/
lemma from_usize_inv : ∀ (w : Nat) (op : OpCode), OpCode.from_usize w = some op →
    w = op.to_usize := by
  intro w op h
  rcases w with _|_|_|_|_|_|_|_|w <;>
    simp only [OpCode.from_usize] at h <;>
    first
      | (cases h; rfl)
      | exact absurd h (by simp)

lemma runVm_eq_runList :
    ∀ (fuel : Nat) (chunk : Chunk) (env : Env) (stack : List Value) (ip : Nat),
      chunk.code.length - ip < fuel →
      (runVm chunk fuel env stack ip).2 =
        runList chunk.constants (chunk.code.drop ip) env stack := by
  intro fuel
  induction fuel with
  | zero => intro chunk env stack ip h; omega
  | succ n ih =>
    intro chunk env stack ip h
    rcases hd : chunk.code.drop ip with _ | ⟨w, rest⟩
    · have hip : chunk.code.length ≤ ip := by
        by_contra hx
        rw [List.drop_eq_getElem_cons (Nat.lt_of_not_le hx)] at hd
        exact List.noConfusion hd
      simp only [runVm, if_neg (Nat.not_lt.mpr hip), runList]
    · have hip : ip < chunk.code.length := drop_cons_lt_length hd
      have hw : chunk.code[ip]? = some w := drop_cons_getElem? hd
      have hrest : chunk.code.drop (ip + 1) = rest := drop_succ_of_drop_cons hd
      rcases hop : OpCode.from_usize w with _ | op
      · simp only [runVm, if_pos hip, hw, hop, runList]
      · have hwv : w = op.to_usize := from_usize_inv _ _ hop
        subst hwv
        cases op with
        | Constant =>
          rcases rest with _ | ⟨idx, rest'⟩
          · have hnone : chunk.code[ip + 1]? = none := by
              rw [List.getElem?_eq_none_iff]
              by_contra hx
              rw [List.drop_eq_getElem_cons (Nat.lt_of_not_le hx)] at hrest
              exact List.noConfusion hrest
            simp only [runVm, if_pos hip, hw, hnone, OpCode.to_usize, OpCode.from_usize, runList]
          · have hidx : chunk.code[ip + 1]? = some idx := drop_cons_getElem?_succ hd
            have hrest2 : chunk.code.drop (ip + 2) = rest' := drop_succ_of_drop_cons hrest
            rcases hc : chunk.constants[idx]? with _ | cv
            · simp only [runVm, if_pos hip, hw, hidx, hc, OpCode.to_usize, OpCode.from_usize,
                runList]
            · simp only [runVm, if_pos hip, hw, hidx, hc, OpCode.to_usize, OpCode.from_usize,
                runList]
              rw [← hrest2]
              exact ih chunk env (cv :: stack) (ip + 2) (by omega)
        | Negate =>
          have hr : rest = chunk.code.drop (ip + 1) := hrest.symm
          subst hr
          rcases stack with _ | ⟨v, s⟩
          · simp only [runVm, if_pos hip, hw, OpCode.to_usize, OpCode.from_usize, runList]
          · rcases v with vn | vs
            · simp only [runVm, if_pos hip, hw, OpCode.to_usize, OpCode.from_usize, runList]
              exact ih chunk env (.Number vn.neg :: s) (ip + 1) (by omega)
            · simp only [runVm, if_pos hip, hw, OpCode.to_usize, OpCode.from_usize, runList]
        | Add =>
          have hr : rest = chunk.code.drop (ip + 1) := hrest.symm
          subst hr
          rcases hb : interpret_binary_op .Add stack with ⟨stack', _ | e⟩ <;>
            simp only [runVm, if_pos hip, hw, OpCode.to_usize, OpCode.from_usize, runList, hb]
          exact ih chunk env stack' (ip + 1) (by omega)
        | Subtract =>
          have hr : rest = chunk.code.drop (ip + 1) := hrest.symm
          subst hr
          rcases hb : interpret_binary_op .Subtract stack with ⟨stack', _ | e⟩ <;>
            simp only [runVm, if_pos hip, hw, OpCode.to_usize, OpCode.from_usize, runList, hb]
          exact ih chunk env stack' (ip + 1) (by omega)
        | Multiply =>
          have hr : rest = chunk.code.drop (ip + 1) := hrest.symm
          subst hr
          rcases hb : interpret_binary_op .Multiply stack with ⟨stack', _ | e⟩ <;>
            simp only [runVm, if_pos hip, hw, OpCode.to_usize, OpCode.from_usize, runList, hb]
          exact ih chunk env stack' (ip + 1) (by omega)
        | Divide =>
          have hr : rest = chunk.code.drop (ip + 1) := hrest.symm
          subst hr
          rcases hb : interpret_binary_op .Divide stack with ⟨stack', _ | e⟩ <;>
            simp only [runVm, if_pos hip, hw, OpCode.to_usize, OpCode.from_usize, runList, hb]
          exact ih chunk env stack' (ip + 1) (by omega)
        | SetVar =>
          rcases rest with _ | ⟨idx, rest'⟩
          · have hnone : chunk.code[ip + 1]? = none := by
              rw [List.getElem?_eq_none_iff]
              by_contra hx
              rw [List.drop_eq_getElem_cons (Nat.lt_of_not_le hx)] at hrest
              exact List.noConfusion hrest
            simp only [runVm, if_pos hip, hw, hnone, OpCode.to_usize, OpCode.from_usize, runList]
          · have hidx : chunk.code[ip + 1]? = some idx := drop_cons_getElem?_succ hd
            have hrest2 : chunk.code.drop (ip + 2) = rest' := drop_succ_of_drop_cons hrest
            rcases hc : chunk.constants[idx]? with _ | cv
            · simp only [runVm, if_pos hip, hw, hidx, hc, OpCode.to_usize, OpCode.from_usize,
                runList]
            · rcases cv with cn | cstr
              · simp only [runVm, if_pos hip, hw, hidx, hc, OpCode.to_usize, OpCode.from_usize,
                  runList]
              · rcases stack with _ | ⟨v, s⟩
                · simp only [runVm, if_pos hip, hw, hidx, hc, OpCode.to_usize, OpCode.from_usize,
                    runList]
                · simp only [runVm, if_pos hip, hw, hidx, hc, OpCode.to_usize, OpCode.from_usize,
                    runList]
                  rw [← hrest2]
                  exact ih chunk (envInsert cstr v env) s (ip + 2) (by omega)
        | GetVar =>
          rcases rest with _ | ⟨idx, rest'⟩
          · have hnone : chunk.code[ip + 1]? = none := by
              rw [List.getElem?_eq_none_iff]
              by_contra hx
              rw [List.drop_eq_getElem_cons (Nat.lt_of_not_le hx)] at hrest
              exact List.noConfusion hrest
            simp only [runVm, if_pos hip, hw, hnone, OpCode.to_usize, OpCode.from_usize, runList]
          · have hidx : chunk.code[ip + 1]? = some idx := drop_cons_getElem?_succ hd
            have hrest2 : chunk.code.drop (ip + 2) = rest' := drop_succ_of_drop_cons hrest
            rcases hc : chunk.constants[idx]? with _ | cv
            · simp only [runVm, if_pos hip, hw, hidx, hc, OpCode.to_usize, OpCode.from_usize,
                runList]
            · rcases cv with cn | cstr
              · simp only [runVm, if_pos hip, hw, hidx, hc, OpCode.to_usize, OpCode.from_usize,
                  runList]
              · rcases he : envLookup env cstr with _ | v
                · simp only [runVm, if_pos hip, hw, hidx, hc, he, OpCode.to_usize,
                    OpCode.from_usize, runList]
                · simp only [runVm, if_pos hip, hw, hidx, hc, he, OpCode.to_usize,
                    OpCode.from_usize, runList]
                  rw [← hrest2]
                  exact ih chunk env (v :: stack) (ip + 2) (by omega)

/-- The constant just appended by `add_constant` is found at the operand
index it recorded. -/
lemma getElem?_append_len (xs : List Value) (x : Value) (ys : List Value) :
    (xs ++ x :: ys)[xs.length]? = some x := by
  rw [List.getElem?_append_right (le_refl _)]
  simp

/-- Compiler correctness on the expression fragment: lowering an
expression appends code that, run on any extension of the resulting
constant pool, pushes exactly the tree-evaluation value of the
expression and leaves everything else untouched. -/
lemma compile_ast_correct : ∀ {ast : AstNode}, ExprAst ast → ∀ (ch : Chunk),
    ∃ (dcode : List Nat) (dconst : List Value) (v : NumVal) (ch' : Chunk),
      compile_ast ast ch = .ok ch' ∧
      ch'.code = ch.code ++ dcode ∧
      ch'.constants = ch.constants ++ dconst ∧
      treeEval ast = some v ∧
      ∀ (extra : List Value) (rest : List Nat) (env : Env) (stack : List Value),
        runList (ch'.constants ++ extra) (dcode ++ rest) env stack =
          runList (ch'.constants ++ extra) rest env (.Number v :: stack) := by
  intro ast h
  induction h with
  | num t v =>
    intro ch
    refine ⟨[0, ch.constants.length], [.Number v], v,
      add_constant (add_instruction ch .Constant t) (.Number v) t, rfl, ?_, ?_, rfl, ?_⟩
    · simp [add_constant, add_instruction, OpCode.to_usize]
    · simp [add_constant, add_instruction]
    · intro extra rest env stack
      have hpool : (add_constant (add_instruction ch .Constant t) (.Number v) t).constants ++ extra
          = ch.constants ++ (.Number v) :: extra := by
        simp [add_constant, add_instruction]
      rw [hpool]
      simp only [runList, OpCode.from_usize, List.cons_append, List.nil_append,
        getElem?_append_len]
      rfl
  | paren t e _ ihe =>
    intro ch
    obtain ⟨dcode, dconst, v, ch', hcomp, hcode, hconst, heval, hrun⟩ := ihe ch
    exact ⟨dcode, dconst, v, ch', hcomp, hcode, hconst, heval, hrun⟩
  | unary t e htok _ ihe =>
    intro ch
    obtain ⟨dcode, dconst, v, ch', hcomp, hcode, hconst, heval, hrun⟩ := ihe ch
    refine ⟨dcode ++ [5], dconst, v.neg, add_instruction ch' .Negate t, ?_, ?_, ?_, ?_, ?_⟩
    · simp only [compile_ast, hcomp, htok]
    · simp [add_instruction, hcode, OpCode.to_usize]
    · simp [add_instruction, hconst]
    · simp only [treeEval, htok, heval]
    · intro extra rest env stack
      have hpool : (add_instruction ch' .Negate t).constants = ch'.constants := rfl
      rw [hpool, List.append_assoc, hrun, List.cons_append, List.nil_append]
      simp only [runList, OpCode.from_usize]
  | plus t l r htok _ _ ihl ihr =>
    intro ch
    obtain ⟨dl, dcl, vl, ch1, hcompL, hcodeL, hconstL, hevalL, hrunL⟩ := ihl ch
    obtain ⟨dr, dcr, vr, ch2, hcompR, hcodeR, hconstR, hevalR, hrunR⟩ := ihr ch1
    refine ⟨dl ++ (dr ++ [1]), dcl ++ dcr, vl.add vr, add_instruction ch2 .Add t, ?_, ?_, ?_, ?_, ?_⟩
    · simp only [compile_ast, hcompL, hcompR, htok]
    · simp [add_instruction, hcodeR, hcodeL, OpCode.to_usize]
    · simp [add_instruction, hconstR, hconstL]
    · simp only [treeEval, htok, hevalL, hevalR]
    · intro extra rest env stack
      have hpool : (add_instruction ch2 .Add t).constants = ch2.constants := rfl
      have hpool2 : ch2.constants ++ extra = ch1.constants ++ (dcr ++ extra) := by
        rw [hconstR, List.append_assoc]
      rw [hpool, List.append_assoc, hpool2, hrunL, ← hpool2, List.append_assoc, hrunR,
        List.cons_append, List.nil_append]
      simp only [runList, OpCode.from_usize, interpret_binary_op]
  | minus t l r htok _ _ ihl ihr =>
    intro ch
    obtain ⟨dl, dcl, vl, ch1, hcompL, hcodeL, hconstL, hevalL, hrunL⟩ := ihl ch
    obtain ⟨dr, dcr, vr, ch2, hcompR, hcodeR, hconstR, hevalR, hrunR⟩ := ihr ch1
    refine ⟨dl ++ (dr ++ [2]), dcl ++ dcr, vl.sub vr, add_instruction ch2 .Subtract t,
      ?_, ?_, ?_, ?_, ?_⟩
    · simp only [compile_ast, hcompL, hcompR, htok]
    · simp [add_instruction, hcodeR, hcodeL, OpCode.to_usize]
    · simp [add_instruction, hconstR, hconstL]
    · simp only [treeEval, htok, hevalL, hevalR]
    · intro extra rest env stack
      have hpool : (add_instruction ch2 .Subtract t).constants = ch2.constants := rfl
      have hpool2 : ch2.constants ++ extra = ch1.constants ++ (dcr ++ extra) := by
        rw [hconstR, List.append_assoc]
      rw [hpool, List.append_assoc, hpool2, hrunL, ← hpool2, List.append_assoc, hrunR,
        List.cons_append, List.nil_append]
      simp only [runList, OpCode.from_usize, interpret_binary_op]
  | star t l r htok _ _ ihl ihr =>
    intro ch
    obtain ⟨dl, dcl, vl, ch1, hcompL, hcodeL, hconstL, hevalL, hrunL⟩ := ihl ch
    obtain ⟨dr, dcr, vr, ch2, hcompR, hcodeR, hconstR, hevalR, hrunR⟩ := ihr ch1
    refine ⟨dl ++ (dr ++ [3]), dcl ++ dcr, vl.mul vr, add_instruction ch2 .Multiply t,
      ?_, ?_, ?_, ?_, ?_⟩
    · simp only [compile_ast, hcompL, hcompR, htok]
    · simp [add_instruction, hcodeR, hcodeL, OpCode.to_usize]
    · simp [add_instruction, hconstR, hconstL]
    · simp only [treeEval, htok, hevalL, hevalR]
    · intro extra rest env stack
      have hpool : (add_instruction ch2 .Multiply t).constants = ch2.constants := rfl
      have hpool2 : ch2.constants ++ extra = ch1.constants ++ (dcr ++ extra) := by
        rw [hconstR, List.append_assoc]
      rw [hpool, List.append_assoc, hpool2, hrunL, ← hpool2, List.append_assoc, hrunR,
        List.cons_append, List.nil_append]
      simp only [runList, OpCode.from_usize, interpret_binary_op]
  | slash t l r htok _ _ ihl ihr =>
    intro ch
    obtain ⟨dl, dcl, vl, ch1, hcompL, hcodeL, hconstL, hevalL, hrunL⟩ := ihl ch
    obtain ⟨dr, dcr, vr, ch2, hcompR, hcodeR, hconstR, hevalR, hrunR⟩ := ihr ch1
    refine ⟨dl ++ (dr ++ [4]), dcl ++ dcr, vl.div vr, add_instruction ch2 .Divide t,
      ?_, ?_, ?_, ?_, ?_⟩
    · simp only [compile_ast, hcompL, hcompR, htok]
    · simp [add_instruction, hcodeR, hcodeL, OpCode.to_usize]
    · simp [add_instruction, hconstR, hconstL]
    · simp only [treeEval, htok, hevalL, hevalR]
    · intro extra rest env stack
      have hpool : (add_instruction ch2 .Divide t).constants = ch2.constants := rfl
      have hpool2 : ch2.constants ++ extra = ch1.constants ++ (dcr ++ extra) := by
        rw [hconstR, List.append_assoc]
      rw [hpool, List.append_assoc, hpool2, hrunL, ← hpool2, List.append_assoc, hrunR,
        List.cons_append, List.nil_append]
      simp only [runList, OpCode.from_usize, interpret_binary_op]

/-- Token classes the dispatch of `Lexer::tokenize` can actually emit:
everything except identifiers and keywords (the identifier/keyword
scanners are dead code; see claim C3). -/
def exprClass (tc : TokenClass) : Prop :=
  tc ≠ .Atom .Identifier ∧ tc ≠ .Keyword .Let

/-- Membership in the token list after a `push_token`. -/
lemma mem_tokens_push {st : LexState} {tc : TokenClass} {lex : String} {t : Token}
    (ht : t ∈ (push_token st tc lex).tokens) : t ∈ st.tokens ∨ t.token_class = tc := by
  simp only [push_token, List.mem_append, List.mem_singleton] at ht
  rcases ht with h | h
  · exact Or.inl h
  · subst h
    exact Or.inr rfl

lemma scan_delimiter_classes {st st' : LexState} {lex : String}
    (h : scan_delimiter st lex = .ok st')
    (hinv : ∀ t ∈ st.tokens, exprClass t.token_class) :
    ∀ t ∈ st'.tokens, exprClass t.token_class := by
  unfold scan_delimiter at h
  split_ifs at h
  cases h
  intro t ht
  rcases mem_tokens_push ht with h1 | h1
  · exact hinv t h1
  · rw [h1]
    exact ⟨by simp, by simp⟩

lemma scan_op_classes {st st' : LexState} {lex : String}
    (h : scan_op st lex = .ok st')
    (hinv : ∀ t ∈ st.tokens, exprClass t.token_class) :
    ∀ t ∈ st'.tokens, exprClass t.token_class := by
  unfold scan_op at h
  split_ifs at h <;> cases h <;> intro t ht <;>
    rcases mem_tokens_push ht with h1 | h1 <;>
    first
      | exact hinv t h1
      | (rw [h1]; exact ⟨by simp, by simp⟩)

lemma scan_binary_op_classes {st st' : LexState} {lex : String}
    (h : scan_binary_op st lex = .ok st')
    (hinv : ∀ t ∈ st.tokens, exprClass t.token_class) :
    ∀ t ∈ st'.tokens, exprClass t.token_class := by
  unfold scan_binary_op at h
  split_ifs at h <;> cases h <;> intro t ht <;>
    rcases mem_tokens_push ht with h1 | h1 <;>
    first
      | exact hinv t h1
      | (rw [h1]; exact ⟨by simp, by simp⟩)

lemma scan_num_lit_classes {input : List Char} {st st' : LexState}
    (h : scan_num_lit input st = .ok st')
    (hinv : ∀ t ∈ st.tokens, exprClass t.token_class) :
    ∀ t ∈ st'.tokens, exprClass t.token_class := by
  unfold scan_num_lit at h
  split at h
  · cases h
  · cases h
  · cases h
    intro t ht
    rcases mem_tokens_push ht with h1 | h1
    · exact hinv t h1
    · rw [h1]
      exact ⟨by simp, by simp⟩

/-- Every token the lexer's scanning loop accumulates is outside the
identifier/keyword classes. -/
lemma tokenizeLoop_classes :
    ∀ (fuel : Nat) (input : List Char) (st : LexState) (ts : List Token),
      (∀ t ∈ st.tokens, exprClass t.token_class) →
      tokenizeLoop input fuel st = .ok ts →
      ∀ t ∈ ts, exprClass t.token_class := by
  intro fuel
  induction fuel with
  | zero =>
    intro input st ts hinv h
    rw [tokenizeLoop] at h
    by_cases hpos : st.pos < input.length
    · rw [if_pos hpos] at h
      cases h
    · rw [if_neg hpos] at h
      cases h
      intro t ht
      rcases List.mem_append.mp ht with h1 | h1
      · exact hinv t h1
      · rw [List.mem_singleton] at h1
        rw [h1]
        exact ⟨by simp, by simp⟩
  | succ n ih =>
    intro input st ts hinv h
    rw [tokenizeLoop] at h
    by_cases hpos : st.pos < input.length
    · rw [if_pos hpos] at h
      split at h
      · cases h
      · rename_i ch heq
        split_ifs at h with h1 h2 h3 h4 h5 h6
        · exact ih input (lexAdvance st 1) ts hinv h
        · exact ih input (new_line st) ts hinv h
        · rcases hs : scan_delimiter st (String.mk [ch]) with st2 | e | p <;> rw [hs] at h
          · exact ih input st2 ts (scan_delimiter_classes hs hinv) h
          · cases h
          · cases h
        · rcases hs : scan_op st (String.mk [ch]) with st2 | e | p <;> rw [hs] at h
          · exact ih input st2 ts (scan_op_classes hs hinv) h
          · cases h
          · cases h
        · rcases hs : scan_binary_op st (String.mk [ch]) with st2 | e | p <;> rw [hs] at h
          · exact ih input st2 ts (scan_binary_op_classes hs hinv) h
          · cases h
          · cases h
        · rcases hs : scan_num_lit input st with st2 | e | p <;> rw [hs] at h
          · exact ih input st2 ts (scan_num_lit_classes hs hinv) h
          · cases h
          · cases h
    · rw [if_neg hpos] at h
      cases h
      intro t ht
      rcases List.mem_append.mp ht with h1 | h1
      · exact hinv t h1
      · rw [List.mem_singleton] at h1
        rw [h1]
        exact ⟨by simp, by simp⟩

/-- `Lexer::tokenize` never emits an identifier or keyword token: its
dispatch has no arm reaching `scan_keyword`/`scan_identifier`. -/
lemma tokenize_classes {input : String} {ts : List Token}
    (h : tokenize input = .ok ts) : ∀ t ∈ ts, exprClass t.token_class :=
  tokenizeLoop_classes _ input.data _ ts (by intro t ht; cases ht) h

/-- Operators with a defined binding power are exactly the four
arithmetic ones. -/
lemma infixBp_some {op : OpToken} {bp : Nat × Nat} (h : infixBp op = some bp) :
    op = .Star ∨ op = .Slash ∨ op = .Min ∨ op = .Plus := by
  cases op <;> simp [infixBp] at h <;> simp

/-- What the Pratt parser can build from a token stream without
identifier or keyword tokens: every successful `parseGo` result is in
the expression fragment (`ExprAst`), given the fragment hypotheses of
the pending call. -/
lemma parseGo_expr :
    ∀ (fuel : Nat) (ts : List Token), (∀ t ∈ ts, exprClass t.token_class) →
      ∀ (pos : Nat) (pc : PCall) (ast : AstNode) (pos' : Nat),
        parseGo ts fuel pos pc = .ok (ast, pos') →
        (match pc with
         | .expr _ => ExprAst ast
         | .loop _ lhs => ExprAst lhs → ExprAst ast
         | .unary tok => tok.token_class = .Op .Min → ExprAst ast
         | .nested _ => ExprAst ast) := by
  intro fuel
  induction fuel with
  | zero =>
    intro ts hts pos pc ast pos' h
    cases h
  | succ n ih =>
    intro ts hts pos pc ast pos' h
    cases pc with
    | expr minBp =>
      rw [parseGo] at h
      rcases hget : ts[pos]? with _ | lhsToken <;> rw [hget] at h
      · cases h
      · have hmem := hts lhsToken (List.getElem?_mem hget)
        rcases hcls : lhsToken.token_class with d | op | a | k <;>
          simp only [hcls] at h
        · cases h
        · rcases op with _ | _ | _ | _ | _ | _ | _ <;> simp only at h
          · -- LeftParen: nested, then loop
            rcases hn : parseGo ts n (pos + 1) (.nested lhsToken) with r | e | p <;>
              rw [hn] at h
            · rcases r with ⟨lhs, p1⟩
              have hlhs : ExprAst lhs := ih ts hts (pos + 1) (.nested lhsToken) lhs p1 hn
              exact ih ts hts p1 (.loop minBp lhs) ast pos' h hlhs
            · cases h
            · cases h
          · cases h
          · cases h
          · -- Min: unary, then loop
            rcases hn : parseGo ts n (pos + 1) (.unary lhsToken) with r | e | p <;>
              rw [hn] at h
            · rcases r with ⟨lhs, p1⟩
              have hlhs : ExprAst lhs :=
                ih ts hts (pos + 1) (.unary lhsToken) lhs p1 hn (by rw [hcls])
              exact ih ts hts p1 (.loop minBp lhs) ast pos' h hlhs
            · cases h
            · cases h
          · cases h
          · cases h
          · cases h
        · rcases a with _ | _ <;> simp only at h
          · -- numeric literal
            rcases hv : parseNumLexeme lhsToken.lexeme with _ | v <;> rw [hv] at h
            · cases h
            · have hlhs : ExprAst (.NumericLit lhsToken v) := ExprAst.num _ _
              exact ih ts hts (pos + 1) (.loop minBp (.NumericLit lhsToken v)) ast pos' h hlhs
          · -- identifier: excluded by the class invariant
            exact absurd hcls hmem.1
        · cases h
    | loop minBp lhs =>
      intro hlhs
      rw [parseGo] at h
      rcases hget : ts[pos]? with _ | opToken <;> rw [hget] at h
      · cases h
      · rcases hcls : opToken.token_class with d | op | a | k <;>
          simp only [hcls] at h
        · cases h
          exact hlhs
        · rcases hbp : infixBp op with _ | bp <;> rw [hbp] at h
          · cases h
            exact hlhs
          · rcases bp with ⟨lBp, rBp⟩
            simp only [] at h
            by_cases hcmp : lBp < minBp
            · rw [if_pos hcmp] at h
              cases h
              exact hlhs
            · rw [if_neg hcmp] at h
              rcases hr : parseGo ts n (pos + 1) (.expr rBp) with r | e | p <;> rw [hr] at h
              · rcases r with ⟨rhs, p2⟩
                have hrhs : ExprAst rhs := ih ts hts (pos + 1) (.expr rBp) rhs p2 hr
                have hbin : ExprAst (.BinaryExpr opToken lhs rhs) := by
                  rcases infixBp_some hbp with ho | ho | ho | ho <;> subst ho
                  · exact ExprAst.star _ _ _ hcls hlhs hrhs
                  · exact ExprAst.slash _ _ _ hcls hlhs hrhs
                  · exact ExprAst.minus _ _ _ hcls hlhs hrhs
                  · exact ExprAst.plus _ _ _ hcls hlhs hrhs
                exact ih ts hts p2 (.loop minBp (.BinaryExpr opToken lhs rhs)) ast pos' h hbin
              · cases h
              · cases h
        · cases h
        · cases h
    | unary tok =>
      intro htok
      rw [parseGo] at h
      rw [htok] at h
      simp only [infixBp] at h
      rcases hr : parseGo ts n pos (.expr 110) with r | e | p <;> rw [hr] at h
      · rcases r with ⟨operand, p1⟩
        simp only [] at h
        cases h
        exact ExprAst.unary _ _ htok (ih ts hts pos (.expr 110) operand _ hr)
      · cases h
      · cases h
    | nested tok =>
      rw [parseGo] at h
      rcases hr : parseGo ts n pos (.expr 0) with r | e | p <;> rw [hr] at h
      · rcases r with ⟨inner, p1⟩
        simp only [] at h
        have hinner : ExprAst inner := ih ts hts pos (.expr 0) inner p1 hr
        rcases hget : ts[p1]? with _ | endToken <;> rw [hget] at h
        · cases h
        · simp only [] at h
          split_ifs at h
          cases h
          exact ExprAst.paren _ _ hinner
      · cases h
      · cases h

/-- A successful parse of a token stream the lexer can produce yields an
AST in the expression fragment: statements require a `let` keyword token
that the lexer never emits, and the statement path's other arm panics
rather than returning. -/
lemma parse_expr_ast {ts : List Token} {ast : AstNode}
    (hts : ∀ t ∈ ts, exprClass t.token_class) (h : parse ts = .ok ast) :
    ExprAst ast := by
  unfold parse at h
  rcases hpt : parse_tokens (4 * ts.length + 4) ts 0 with r | e | p <;> rw [hpt] at h
  · rcases r with ⟨prog, pos⟩
    simp only [] at h
    have hast : ExprAst prog := by
      unfold parse_tokens at hpt
      rcases hget : ts[0]? with _ | token <;> rw [hget] at hpt
      · cases hpt
      · have hmem := hts token (List.getElem?_mem hget)
        rcases hcls : token.token_class with d | op | a | k <;> simp only [hcls] at hpt
        · -- delimiter routes to parse_stmt, which panics
          unfold parse_stmt at hpt
          rw [hget] at hpt
          simp only [] at hpt
          rw [hcls] at hpt
          simp only [] at hpt
          cases hpt
        · exact parseGo_expr _ ts hts 0 (.expr 0) prog pos hpt
        · exact parseGo_expr _ ts hts 0 (.expr 0) prog pos hpt
        · -- the only keyword is `let`, which the lexer never emits
          cases k
          exact absurd hcls hmem.2
    rcases hget : ts[pos]? with _ | token <;> rw [hget] at h
    · cases h
    · simp only [] at h
      split_ifs at h
      cases h
      exact hast
  · cases h
  · cases h

/-- The result component of `interpret_chunk` is the straight-line run
of the chunk's code from an empty stack in the caller's environment. -/
lemma interpret_chunk_res (chunk : Chunk) (st : IState) :
    (interpret_chunk chunk st).2 = runList chunk.constants chunk.code st.vars [] := by
  unfold interpret_chunk
  rcases hr : runVm chunk (chunk.code.length + 1) st.vars [] 0 with ⟨⟨e, s, i⟩, r⟩
  have heq := runVm_eq_runList (chunk.code.length + 1) chunk st.vars [] 0 (by omega)
  rw [hr] at heq
  simpa using heq

/-- Larger constant pools keep a stream well-formed. -/
lemma CodeWF.mono {nc nc' : Nat} (h : nc ≤ nc') :
    ∀ {code : List Nat}, CodeWF nc code → CodeWF nc' code := by
  intro code hwf
  induction hwf with
  | nil => exact .nil
  | constant idx rest hidx _ ih => exact .constant idx rest (lt_of_lt_of_le hidx h) ih
  | simple w rest hw _ ih => exact .simple w rest hw ih
  | setvar idx rest hidx _ ih => exact .setvar idx rest (lt_of_lt_of_le hidx h) ih
  | getvar idx rest hidx _ ih => exact .getvar idx rest (lt_of_lt_of_le hidx h) ih

/-- Concatenating well-formed streams stays well-formed. -/
lemma CodeWF.append {nc : Nat} :
    ∀ {a b : List Nat}, CodeWF nc a → CodeWF nc b → CodeWF nc (a ++ b) := by
  intro a b ha hb
  induction ha with
  | nil => simpa using hb
  | constant idx rest hidx _ ih => exact .constant idx _ hidx ih
  | simple w rest hw _ ih => exact .simple w _ hw ih
  | setvar idx rest hidx _ ih => exact .setvar idx _ hidx ih
  | getvar idx rest hidx _ ih => exact .getvar idx _ hidx ih

/-- Everything `Compiler::compile_ast` appends to a chunk is well
formed: operand words are always in range of the final constant pool,
and no opcode is ever emitted without its operand. -/
lemma compile_ast_wf : ∀ (ast : AstNode) (ch ch' : Chunk),
    compile_ast ast ch = .ok ch' →
    ch.constants.length ≤ ch'.constants.length ∧
    ∃ d, ch'.code = ch.code ++ d ∧ CodeWF ch'.constants.length d := by
  intro ast
  induction ast with
  | Empty =>
    intro ch ch' h
    cases h
    exact ⟨le_refl _, [], by simp, .nil⟩
  | Stmt t s ih =>
    intro ch ch' h
    cases h
  | VariableAssignmentStmt t idname e ihe =>
    intro ch ch' h
    rw [compile_ast] at h
    rcases hc : compile_ast e ch with c1 | er | p <;> rw [hc] at h
    · simp only [] at h
      cases h
      obtain ⟨hle, d, hcode, hwf⟩ := ihe ch c1 hc
      refine ⟨by simp [add_constant, add_instruction]; omega, d ++ [6, c1.constants.length],
        ?_, ?_⟩
      · simp [add_constant, add_instruction, hcode, OpCode.to_usize]
      · have hlen : (add_constant (add_instruction c1 .SetVar t) (.String idname) t).constants.length
            = c1.constants.length + 1 := by simp [add_constant, add_instruction]
        rw [hlen]
        exact CodeWF.append (hwf.mono (by omega))
          (.setvar _ _ (by omega) .nil)
    · cases h
    · cases h
  | Expr t e ihe =>
    intro ch ch' h
    rw [compile_ast] at h
    exact ihe ch ch' h
  | BinaryExpr t l r ihl ihr =>
    intro ch ch' h
    rw [compile_ast] at h
    rcases hc1 : compile_ast l ch with c1 | er | p <;> rw [hc1] at h
    · simp only [] at h
      rcases hc2 : compile_ast r c1 with c2 | er | p <;> rw [hc2] at h
      all_goals simp only [] at h
      · obtain ⟨hle1, d1, hcode1, hwf1⟩ := ihl ch c1 hc1
        obtain ⟨hle2, d2, hcode2, hwf2⟩ := ihr c1 c2 hc2
        rcases hcls : t.token_class with dd | op | a | k <;> rw [hcls] at h
        · cases h
        · have step : ∀ (oc : OpCode), oc.to_usize = 1 ∨ oc.to_usize = 2 ∨ oc.to_usize = 3 ∨
              oc.to_usize = 4 ∨ oc.to_usize = 5 →
              ch' = add_instruction c2 oc t →
              ch.constants.length ≤ ch'.constants.length ∧
              ∃ d, ch'.code = ch.code ++ d ∧ CodeWF ch'.constants.length d := by
            intro oc hoc hch
            subst hch
            refine ⟨by simp [add_instruction]; omega, d1 ++ (d2 ++ [oc.to_usize]), ?_, ?_⟩
            · simp [add_instruction, hcode2, hcode1]
            · have hconst : (add_instruction c2 oc t).constants = c2.constants := rfl
              rw [hconst]
              exact CodeWF.append (hwf1.mono hle2)
                (CodeWF.append hwf2 (.simple _ _ (by omega) .nil))
          rcases op with _ | _ | _ | _ | _ | _ | _ <;> simp only at h
          · cases h
          · cases h
          · exact step .Add (by simp [OpCode.to_usize]) (by cases h; rfl)
          · exact step .Subtract (by simp [OpCode.to_usize]) (by cases h; rfl)
          · exact step .Divide (by simp [OpCode.to_usize]) (by cases h; rfl)
          · exact step .Multiply (by simp [OpCode.to_usize]) (by cases h; rfl)
          · cases h
        · cases h
        · cases h
      · cases h
      · cases h
    · cases h
    · cases h
  | UnaryExpr t e ihe =>
    intro ch ch' h
    rw [compile_ast] at h
    rcases hc : compile_ast e ch with c1 | er | p <;> rw [hc] at h
    · simp only [] at h
      obtain ⟨hle, d, hcode, hwf⟩ := ihe ch c1 hc
      rcases hcls : t.token_class with dd | op | a | k <;> rw [hcls] at h
      · cases h
      · rcases op with _ | _ | _ | _ | _ | _ | _ <;> simp only at h
        · cases h
        · cases h
        · cases h
        · cases h
          refine ⟨hle, d ++ [5], by simp [add_instruction, hcode, OpCode.to_usize], ?_⟩
          have hconst : (add_instruction c1 .Negate t).constants = c1.constants := rfl
          rw [hconst]
          exact CodeWF.append hwf (.simple _ _ (by omega) .nil)
        · cases h
        · cases h
        · cases h
      · cases h
      · cases h
    · cases h
    · cases h
  | NumericLit t v =>
    intro ch ch' h
    cases h
    refine ⟨by simp [add_constant, add_instruction], [0, ch.constants.length], ?_, ?_⟩
    · simp [add_constant, add_instruction, OpCode.to_usize]
    · have hlen : (add_constant (add_instruction ch .Constant t) (.Number v) t).constants.length
          = ch.constants.length + 1 := by simp [add_constant, add_instruction]
      rw [hlen]
      exact .constant _ _ (by omega) .nil
  | VariableAccessExpr t idname =>
    intro ch ch' h
    cases h
    refine ⟨by simp [add_constant, add_instruction], [7, ch.constants.length], ?_, ?_⟩
    · simp [add_constant, add_instruction, OpCode.to_usize]
    · have hlen : (add_constant (add_instruction ch .GetVar t) (.String idname) t).constants.length
          = ch.constants.length + 1 := by simp [add_constant, add_instruction]
      rw [hlen]
      exact .getvar _ _ (by omega) .nil

/-- Executing a well-formed instruction stream never performs an
out-of-bounds access: neither reading an operand word nor indexing the
constant pool can fail. -/
lemma runList_no_indexOOB :
    ∀ {code : List Nat} {consts : List Value},
      CodeWF consts.length code →
      ∀ (env : Env) (stack : List Value),
        runList consts code env stack ≠ .crash .indexOOB := by
  intro code consts hwf
  induction hwf with
  | nil =>
    intro env stack
    simp only [runList]
    unfold vmFinish
    split_ifs
    · simp
    · rcases stack with _ | ⟨v, s⟩ <;> simp
  | constant idx rest hidx _ ih =>
    intro env stack
    simp only [runList, OpCode.from_usize]
    rw [List.getElem?_eq_getElem hidx]
    exact ih env _
  | simple w rest hw _ ih =>
    intro env stack
    rcases hw with hw | hw | hw | hw | hw <;> subst hw <;>
      simp only [runList, OpCode.from_usize]
    · rcases hb : interpret_binary_op .Add stack with ⟨stack', _ | e⟩
      · exact ih env stack'
      · simp
    · rcases hb : interpret_binary_op .Subtract stack with ⟨stack', _ | e⟩
      · exact ih env stack'
      · simp
    · rcases hb : interpret_binary_op .Multiply stack with ⟨stack', _ | e⟩
      · exact ih env stack'
      · simp
    · rcases hb : interpret_binary_op .Divide stack with ⟨stack', _ | e⟩
      · exact ih env stack'
      · simp
    · rcases stack with _ | ⟨v, s⟩
      · simp
      · rcases v with vn | vs
        · exact ih env _
        · simp
  | setvar idx rest hidx _ ih =>
    intro env stack
    simp only [runList, OpCode.from_usize]
    rw [List.getElem?_eq_getElem hidx]
    rcases hv : consts[idx] with vn | vs
    · simp
    · rcases stack with _ | ⟨v, s⟩
      · simp
      · exact ih _ s
  | getvar idx rest hidx _ ih =>
    intro env stack
    simp only [runList, OpCode.from_usize]
    rw [List.getElem?_eq_getElem hidx]
    rcases hv : consts[idx] with vn | vs
    · simp
    · simp only []
      rcases he : envLookup env vs with _ | v
      · simp
      · exact ih env _

/-- C7: for every chunk whose execution reaches the end of the
instruction stream, more than one residual stack value fails with
incomplete-expression, exactly one is returned as the successful result,
zero residual values succeed with no result, and the interpret interface
renders "no result" as the empty string. -/
theorem c7_end_of_stream :
    (∀ (fuel : Nat) (chunk : Chunk) (env : Env) (stack : List Value) (ip : Nat),
      chunk.code.length ≤ ip →
      runVm chunk fuel env stack ip = ((env, stack, ip), vmFinish stack)) ∧
    (∀ stack : List Value, 1 < stack.length → vmFinish stack = .err .IncompleteExpression) ∧
    (∀ v : Value, vmFinish [v] = .ok (some v)) ∧
    vmFinish ([] : List Value) = .ok none ∧
    interpret_result none = .ok "" := by
  refine ⟨?_, ?_, ?_, rfl, rfl⟩
  · intro fuel chunk env stack ip hip
    cases fuel with
    | zero => simp only [runVm, if_neg (Nat.not_lt.mpr hip)]
    | succ n => simp only [runVm, if_neg (Nat.not_lt.mpr hip)]
  · intro stack hlen
    simp only [vmFinish, if_pos hlen]
  · intro v
    rfl

/-- Witness for C7 at a concrete dead chunk and stacks of size 2, 1, 0. -/
theorem c7_end_of_stream_witness :
    runVm Chunk.new 0 [] [.Number ⟨1, 1⟩, .Number ⟨2, 1⟩] 0 =
      (([], [.Number ⟨1, 1⟩, .Number ⟨2, 1⟩], 0), vmFinish [.Number ⟨1, 1⟩, .Number ⟨2, 1⟩]) ∧
    vmFinish [Value.Number ⟨1, 1⟩, .Number ⟨2, 1⟩] = .err .IncompleteExpression ∧
    vmFinish [Value.Number ⟨1, 1⟩] = .ok (some (.Number ⟨1, 1⟩)) := by
  exact ⟨c7_end_of_stream.1 0 Chunk.new [] _ 0 (by decide),
    c7_end_of_stream.2.1 _ (by decide), c7_end_of_stream.2.2.1 _⟩

/-- C6: a `GetVar` on a name with no binding fails with
uninitialised-variable (and only `SetVar` ever creates bindings — see
C8); a `GetVar` on a bound name pushes the bound value; a `SetVar` binds
the popped value over any prior binding, and a lookup after an insert
returns the newly inserted value, so later reads see the most recent
assignment. -/
theorem c6_getvar_setvar :
    (∀ (fuel : Nat) (chunk : Chunk) (env : Env) (stack : List Value) (ip idx : Nat)
        (rest : List Nat) (name : String),
      chunk.code.drop ip = 7 :: idx :: rest →
      chunk.constants[idx]? = some (.String name) →
      envLookup env name = none →
      runVm chunk (fuel + 1) env stack ip = ((env, stack, ip), .err .UninitialisedVariable)) ∧
    (∀ (fuel : Nat) (chunk : Chunk) (env : Env) (stack : List Value) (ip idx : Nat)
        (rest : List Nat) (name : String) (v : Value),
      chunk.code.drop ip = 7 :: idx :: rest →
      chunk.constants[idx]? = some (.String name) →
      envLookup env name = some v →
      runVm chunk (fuel + 1) env stack ip = runVm chunk fuel env (v :: stack) (ip + 2)) ∧
    (∀ (fuel : Nat) (chunk : Chunk) (env : Env) (stack : List Value) (ip idx : Nat)
        (rest : List Nat) (name : String) (v : Value),
      chunk.code.drop ip = 6 :: idx :: rest →
      chunk.constants[idx]? = some (.String name) →
      runVm chunk (fuel + 1) env (v :: stack) ip =
        runVm chunk fuel (envInsert name v env) stack (ip + 2)) ∧
    (∀ (env : Env) (name : String) (v : Value),
      envLookup (envInsert name v env) name = some v) := by
  refine ⟨?_, ?_, ?_, ?_⟩
  · intro fuel chunk env stack ip idx rest name hdrop hconst henv
    have hip := drop_cons_lt_length hdrop
    have hw := drop_cons_getElem? hdrop
    have hidx := drop_cons_getElem?_succ hdrop
    simp only [runVm, if_pos hip, hw, hidx, hconst, henv, OpCode.from_usize]
  · intro fuel chunk env stack ip idx rest name v hdrop hconst henv
    have hip := drop_cons_lt_length hdrop
    have hw := drop_cons_getElem? hdrop
    have hidx := drop_cons_getElem?_succ hdrop
    simp only [runVm, if_pos hip, hw, hidx, hconst, henv, OpCode.from_usize]
  · intro fuel chunk env stack ip idx rest name v hdrop hconst
    have hip := drop_cons_lt_length hdrop
    have hw := drop_cons_getElem? hdrop
    have hidx := drop_cons_getElem?_succ hdrop
    simp only [runVm, if_pos hip, hw, hidx, hconst, OpCode.from_usize]
  · intro env name v
    simp [envLookup, envInsert]

/-- Witness for C6 on a two-instruction session: reading `y` from the
empty environment fails; after inserting `y` (as `SetVar` does) the
read pushes the most recently assigned value. -/
theorem c6_getvar_setvar_witness :
    runVm ⟨[7, 0], [.String "y"], []⟩ 1 [] [] 0 =
      (([], [], 0), .err .UninitialisedVariable) ∧
    runVm ⟨[6, 0], [.String "y"], []⟩ 1 [] [.Number ⟨5, 1⟩] 0 =
      runVm ⟨[6, 0], [.String "y"], []⟩ 0 (envInsert "y" (.Number ⟨5, 1⟩) []) [] 2 ∧
    envLookup (envInsert "y" (.Number ⟨5, 1⟩) [("y", .Number ⟨1, 1⟩)]) "y" =
      some (.Number ⟨5, 1⟩) := by
  exact ⟨c6_getvar_setvar.1 0 _ [] [] 0 0 [] "y" (by decide) (by decide) (by decide),
    c6_getvar_setvar.2.2.1 0 _ [] [] 0 0 [] "y" (.Number ⟨5, 1⟩) (by decide) (by decide),
    c6_getvar_setvar.2.2.2 [("y", .Number ⟨1, 1⟩)] "y" (.Number ⟨5, 1⟩)⟩

/-- C5: the binary-operation handler pops the right operand first (the
top of the stack is the right operand, below it the left), pushes
`left ∘ right` — in particular subtraction computes left minus right and
division left over right — and fails with expected-operand when fewer
than two values are on the stack.  The last two conjuncts restate the
non-commutative cases at the instruction-dispatch level. -/
theorem c5_binary_pop_order :
    (∀ (l r : NumVal) (rest : List Value),
      interpret_binary_op .Add (.Number r :: .Number l :: rest) =
        (.Number (l.add r) :: rest, none) ∧
      interpret_binary_op .Subtract (.Number r :: .Number l :: rest) =
        (.Number (l.sub r) :: rest, none) ∧
      interpret_binary_op .Multiply (.Number r :: .Number l :: rest) =
        (.Number (l.mul r) :: rest, none) ∧
      interpret_binary_op .Divide (.Number r :: .Number l :: rest) =
        (.Number (l.div r) :: rest, none)) ∧
    (∀ (op : OpCode) (stack : List Value), stack.length < 2 →
      interpret_binary_op op stack = (stack.drop 2, some .ExpectedOperand)) ∧
    (∀ (fuel : Nat) (chunk : Chunk) (env : Env) (s : List Value) (ip : Nat)
        (rest : List Nat) (l r : NumVal),
      chunk.code.drop ip = 2 :: rest →
      runVm chunk (fuel + 1) env (.Number r :: .Number l :: s) ip =
        runVm chunk fuel env (.Number (l.sub r) :: s) (ip + 1)) ∧
    (∀ (fuel : Nat) (chunk : Chunk) (env : Env) (s : List Value) (ip : Nat)
        (rest : List Nat) (l r : NumVal),
      chunk.code.drop ip = 4 :: rest →
      runVm chunk (fuel + 1) env (.Number r :: .Number l :: s) ip =
        runVm chunk fuel env (.Number (l.div r) :: s) (ip + 1)) := by
  refine ⟨fun l r rest => ⟨rfl, rfl, rfl, rfl⟩, ?_, ?_, ?_⟩
  · intro op stack hlen
    rcases stack with _ | ⟨a, _ | ⟨b, s⟩⟩
    · rfl
    · rcases a with an | as <;> rfl
    · simp at hlen
      omega
  · intro fuel chunk env s ip rest l r hdrop
    have hip := drop_cons_lt_length hdrop
    have hw := drop_cons_getElem? hdrop
    simp only [runVm, if_pos hip, hw, OpCode.from_usize, interpret_binary_op]
  · intro fuel chunk env s ip rest l r hdrop
    have hip := drop_cons_lt_length hdrop
    have hw := drop_cons_getElem? hdrop
    simp only [runVm, if_pos hip, hw, OpCode.from_usize, interpret_binary_op]

/-- Witness for C5: subtraction on a concrete stack computes 8 - 2 = 6
(left minus right, with the right operand on top), and a one-element
stack yields expected-operand. -/
theorem c5_binary_pop_order_witness :
    interpret_binary_op .Subtract [.Number ⟨2, 1⟩, .Number ⟨8, 1⟩] =
      ([.Number (NumVal.sub ⟨8, 1⟩ ⟨2, 1⟩)], none) ∧
    interpret_binary_op .Subtract [.Number ⟨2, 1⟩] = ([], some .ExpectedOperand) ∧
    runVm ⟨[2], [], []⟩ 1 [] [.Number ⟨2, 1⟩, .Number ⟨8, 1⟩] 0 =
      runVm ⟨[2], [], []⟩ 0 [] [.Number (NumVal.sub ⟨8, 1⟩ ⟨2, 1⟩)] 1 := by
  exact ⟨((c5_binary_pop_order.1 ⟨8, 1⟩ ⟨2, 1⟩ []).2.1),
    c5_binary_pop_order.2.1 .Subtract [.Number ⟨2, 1⟩] (by decide),
    c5_binary_pop_order.2.2.1 0 ⟨[2], [], []⟩ [] [] 0 [] ⟨8, 1⟩ ⟨2, 1⟩ (by decide)⟩

/-- The run loop leaves the variable environment untouched unless a
`SetVar` opcode word occurs in the instruction stream. -/
lemma runVm_env_const :
    ∀ (fuel : Nat) (chunk : Chunk) (env : Env) (stack : List Value) (ip : Nat),
      (6 : Nat) ∉ chunk.code →
      (runVm chunk fuel env stack ip).1.1 = env := by
  intro fuel
  induction fuel with
  | zero =>
    intro chunk env stack ip hset
    by_cases hip : ip < chunk.code.length
    · simp only [runVm, if_pos hip]
    · simp only [runVm, if_neg hip]
  | succ n ih =>
    intro chunk env stack ip hset
    by_cases hip : ip < chunk.code.length
    · rcases hw : chunk.code[ip]? with _ | w
      · simp only [runVm, if_pos hip, hw]
      · rcases hop : OpCode.from_usize w with _ | op
        · simp only [runVm, if_pos hip, hw, hop]
        · have hwv := from_usize_inv _ _ hop
          subst hwv
          cases op with
          | Constant =>
            rcases hd1 : chunk.code[ip + 1]? with _ | idx
            · simp only [runVm, if_pos hip, hw, OpCode.to_usize, OpCode.from_usize, hd1]
            · rcases hc : chunk.constants[idx]? with _ | cv
              · simp only [runVm, if_pos hip, hw, OpCode.to_usize, OpCode.from_usize, hd1, hc]
              · simp only [runVm, if_pos hip, hw, OpCode.to_usize, OpCode.from_usize, hd1, hc]
                exact ih chunk env (cv :: stack) (ip + 2) hset
          | Negate =>
            rcases stack with _ | ⟨v, s⟩
            · simp only [runVm, if_pos hip, hw, OpCode.to_usize, OpCode.from_usize]
            · rcases v with vn | vs
              · simp only [runVm, if_pos hip, hw, OpCode.to_usize, OpCode.from_usize]
                exact ih chunk env _ (ip + 1) hset
              · simp only [runVm, if_pos hip, hw, OpCode.to_usize, OpCode.from_usize]
          | Add =>
            rcases hb : interpret_binary_op .Add stack with ⟨stack', _ | e⟩
            · simp only [runVm, if_pos hip, hw, OpCode.to_usize, OpCode.from_usize, hb]
              exact ih chunk env stack' (ip + 1) hset
            · simp only [runVm, if_pos hip, hw, OpCode.to_usize, OpCode.from_usize, hb]
          | Subtract =>
            rcases hb : interpret_binary_op .Subtract stack with ⟨stack', _ | e⟩
            · simp only [runVm, if_pos hip, hw, OpCode.to_usize, OpCode.from_usize, hb]
              exact ih chunk env stack' (ip + 1) hset
            · simp only [runVm, if_pos hip, hw, OpCode.to_usize, OpCode.from_usize, hb]
          | Multiply =>
            rcases hb : interpret_binary_op .Multiply stack with ⟨stack', _ | e⟩
            · simp only [runVm, if_pos hip, hw, OpCode.to_usize, OpCode.from_usize, hb]
              exact ih chunk env stack' (ip + 1) hset
            · simp only [runVm, if_pos hip, hw, OpCode.to_usize, OpCode.from_usize, hb]
          | Divide =>
            rcases hb : interpret_binary_op .Divide stack with ⟨stack', _ | e⟩
            · simp only [runVm, if_pos hip, hw, OpCode.to_usize, OpCode.from_usize, hb]
              exact ih chunk env stack' (ip + 1) hset
            · simp only [runVm, if_pos hip, hw, OpCode.to_usize, OpCode.from_usize, hb]
          | SetVar =>
            exact absurd (List.getElem?_mem hw) hset
          | GetVar =>
            rcases hd1 : chunk.code[ip + 1]? with _ | idx
            · simp only [runVm, if_pos hip, hw, OpCode.to_usize, OpCode.from_usize, hd1]
            · rcases hc : chunk.constants[idx]? with _ | cv
              · simp only [runVm, if_pos hip, hw, OpCode.to_usize, OpCode.from_usize, hd1, hc]
              · rcases cv with cn | cstr
                · simp only [runVm, if_pos hip, hw, OpCode.to_usize, OpCode.from_usize, hd1, hc]
                · rcases he : envLookup env cstr with _ | v
                  · simp only [runVm, if_pos hip, hw, OpCode.to_usize, OpCode.from_usize,
                      hd1, hc, he]
                  · simp only [runVm, if_pos hip, hw, OpCode.to_usize, OpCode.from_usize,
                      hd1, hc, he]
                    exact ih chunk env (v :: stack) (ip + 2) hset
    · simp only [runVm, if_neg hip]

/-- C8: every call of `interpret_chunk` behaves as if the operand stack
were empty and the instruction pointer zero — the incoming stack and
pointer are discarded by the reset — and the variable environment is
modified only by `SetVar` instructions: a chunk whose instruction stream
contains no `SetVar` word leaves the environment exactly as it was, so
bindings persist unchanged across successive calls on the same
interpreter. -/
theorem c8_reset_and_persistent_env :
    (∀ (chunk : Chunk) (st : IState),
      interpret_chunk chunk st = interpret_chunk chunk ⟨st.vars, [], 0⟩) ∧
    (∀ (fuel : Nat) (chunk : Chunk) (env : Env) (stack : List Value) (ip : Nat),
      (6 : Nat) ∉ chunk.code → (runVm chunk fuel env stack ip).1.1 = env) ∧
    (∀ (chunk : Chunk) (st : IState),
      (6 : Nat) ∉ chunk.code → (interpret_chunk chunk st).1.vars = st.vars) := by
  refine ⟨fun chunk st => rfl, runVm_env_const, ?_⟩
  intro chunk st hset
  unfold interpret_chunk
  rcases hr : runVm chunk (chunk.code.length + 1) st.vars [] 0 with ⟨⟨e, s, i⟩, r⟩
  have henv := runVm_env_const (chunk.code.length + 1) chunk st.vars [] 0 hset
  rw [hr] at henv
  exact henv

/-- Witness for C8 on a `SetVar`-free chunk (push the constant 1):
running it leaves a nonempty environment unchanged. -/
theorem c8_reset_and_persistent_env_witness :
    (runVm ⟨[0, 0], [.Number ⟨1, 1⟩], []⟩ 3 [("x", .Number ⟨5, 1⟩)] [] 0).1.1 =
      [("x", .Number ⟨5, 1⟩)] ∧
    (interpret_chunk ⟨[0, 0], [.Number ⟨1, 1⟩], []⟩
        ⟨[("x", .Number ⟨5, 1⟩)], [.Number ⟨9, 1⟩], 7⟩).1.vars = [("x", .Number ⟨5, 1⟩)] := by
  exact ⟨c8_reset_and_persistent_env.2.1 3 _ _ [] 0 (by decide),
    c8_reset_and_persistent_env.2.2 _ _ (by decide)⟩

/-- The tokens of `"(1 + 2;"`. -/
def c9_tokens : List Token :=
  [⟨.Op .LeftParen, "(", ⟨0, 0⟩⟩, ⟨.Atom .NumericLit, "1", ⟨0, 1⟩⟩,
   ⟨.Op .Plus, "+", ⟨0, 3⟩⟩, ⟨.Atom .NumericLit, "2", ⟨0, 5⟩⟩,
   ⟨.Delim .Semicolon, ";", ⟨0, 6⟩⟩, ⟨.Delim .EoF, "", ⟨0, 7⟩⟩]

/-- C9: whenever the inner expression of a parenthesized expression
parses but the next token is not a right-paren, `parse_nested_expr`
fails with unclosed-expression carrying the opening left-paren token;
concretely, `"(1 + 2;"` lexes and then fails to parse exactly that way,
referencing the `(` at row 0, column 0. -/
theorem c9_unclosed_paren :
    (∀ (n : Nat) (ts : List Token) (pos : Nat) (token : Token) (inner : AstNode)
        (pos' : Nat) (next : Token),
      parseExpr n ts pos 0 = .ok (inner, pos') →
      ts[pos']? = some next →
      next.token_class ≠ .Op .RightParen →
      parseNestedExpr (n + 1) ts pos token = .err (.UnclosedExpression token)) ∧
    tokenize "(1 + 2;" = .ok c9_tokens ∧
    parse c9_tokens = .err (.UnclosedExpression ⟨.Op .LeftParen, "(", ⟨0, 0⟩⟩) := by
  refine ⟨?_, by decide, by decide⟩
  intro n ts pos token inner pos' next hinner hnext hcls
  unfold parseNestedExpr
  rw [parseGo]
  rw [show parseGo ts n pos (.expr 0) = .ok (inner, pos') from hinner]
  simp only []
  rw [hnext]
  simp only [if_neg hcls]

/-- Witness for C9's general conjunct at the concrete `"(1 + 2;"`
stream: the inner `1 + 2` parses to position 4, where the semicolon sits
instead of a right-paren. -/
theorem c9_unclosed_paren_witness :
    parseNestedExpr 8 c9_tokens 1 ⟨.Op .LeftParen, "(", ⟨0, 0⟩⟩ =
      .err (.UnclosedExpression ⟨.Op .LeftParen, "(", ⟨0, 0⟩⟩) := by
  exact c9_unclosed_paren.1 7 c9_tokens 1 ⟨.Op .LeftParen, "(", ⟨0, 0⟩⟩
    (.BinaryExpr ⟨.Op .Plus, "+", ⟨0, 3⟩⟩
      (.NumericLit ⟨.Atom .NumericLit, "1", ⟨0, 1⟩⟩ ⟨1, 1⟩)
      (.NumericLit ⟨.Atom .NumericLit, "2", ⟨0, 5⟩⟩ ⟨2, 1⟩))
    4 ⟨.Delim .Semicolon, ";", ⟨0, 6⟩⟩ (by decide) (by decide) (by decide)

/-- C10: whenever the first token of a stream is a delimiter — as for an
empty source, whose token stream is just the synthesized end-of-input
token, or a source starting with a semicolon — `Parser::parse` routes to
`parse_stmt`, whose non-`let` arm is an unhandled `todo!()`: the parser
panics instead of returning an AST or a `ParserError`. -/
theorem c10_delimiter_first_panics :
    (∀ (ts : List Token) (t : Token) (d : DelimToken),
      ts[0]? = some t → t.token_class = .Delim d →
      parse ts = .crash .todoUnreachable) ∧
    tokenize "" = .ok [⟨.Delim .EoF, "", ⟨0, 0⟩⟩] ∧
    tokenize ";" = .ok [⟨.Delim .Semicolon, ";", ⟨0, 0⟩⟩, ⟨.Delim .EoF, "", ⟨0, 1⟩⟩] ∧
    parse [⟨.Delim .EoF, "", ⟨0, 0⟩⟩] = .crash .todoUnreachable := by
  have hgen : ∀ (ts : List Token) (t : Token) (d : DelimToken),
      ts[0]? = some t → t.token_class = .Delim d →
      parse ts = .crash .todoUnreachable := by
    intro ts t d hget hcls
    unfold parse parse_tokens
    rw [hget]
    simp only []
    rw [hcls]
    simp only []
    unfold parse_stmt
    rw [hget]
    simp only []
    rw [hcls]
  refine ⟨hgen, by decide, by decide, ?_⟩
  exact hgen [⟨.Delim .EoF, "", ⟨0, 0⟩⟩] ⟨.Delim .EoF, "", ⟨0, 0⟩⟩ .EoF rfl rfl

/-- Witness for C10's general conjunct at the semicolon-first stream. -/
theorem c10_delimiter_first_panics_witness :
    parse [⟨.Delim .Semicolon, ";", ⟨0, 0⟩⟩, ⟨.Delim .EoF, "", ⟨0, 1⟩⟩] =
      .crash .todoUnreachable := by
  exact c10_delimiter_first_panics.1 _ ⟨.Delim .Semicolon, ";", ⟨0, 0⟩⟩ .Semicolon rfl rfl

/-- C1: for every input string the lexer and the Pratt parser (with the
source's exact binding powers) accept, compiling the parsed AST and
executing the chunk on the VM succeeds and yields exactly the value of
evaluating the AST directly as a tree — numeric literals to their
values, unary minus to negation, parentheses transparently, binary
nodes to left-combined-with-right under +, -, *, /. -/
theorem c1_compile_execute_eq_tree_eval :
    ∀ (input : String) (ts : List Token) (ast : AstNode),
      tokenize input = .ok ts → parse ts = .ok ast →
      ∃ (chunk : Chunk) (v : NumVal),
        compile_ast ast Chunk.new = .ok chunk ∧
        treeEval ast = some v ∧
        ∀ st : IState, (interpret_chunk chunk st).2 = .ok (some (.Number v)) := by
  intro input ts ast hlex hparse
  have hts := tokenize_classes hlex
  have hast := parse_expr_ast hts hparse
  obtain ⟨dcode, dconst, v, ch', hcomp, hcode, hconst, heval, hrun⟩ :=
    compile_ast_correct hast Chunk.new
  refine ⟨ch', v, hcomp, heval, ?_⟩
  intro st
  rw [interpret_chunk_res]
  have hcode' : ch'.code = dcode := by
    rw [hcode]
    rfl
  have hrun0 := hrun [] [] st.vars []
  simp only [List.append_nil] at hrun0
  rw [hcode', hrun0]
  rfl

/-- The tokens of `"1 + 2 * 3"`. -/
def c1_tokens : List Token :=
  [⟨.Atom .NumericLit, "1", ⟨0, 0⟩⟩, ⟨.Op .Plus, "+", ⟨0, 2⟩⟩,
   ⟨.Atom .NumericLit, "2", ⟨0, 4⟩⟩, ⟨.Op .Star, "*", ⟨0, 6⟩⟩,
   ⟨.Atom .NumericLit, "3", ⟨0, 8⟩⟩, ⟨.Delim .EoF, "", ⟨0, 9⟩⟩]

/-- The AST the Pratt parser builds for `"1 + 2 * 3"`: star binds
tighter, so the tree is `1 + (2 * 3)`. -/
def c1_ast : AstNode :=
  .BinaryExpr ⟨.Op .Plus, "+", ⟨0, 2⟩⟩
    (.NumericLit ⟨.Atom .NumericLit, "1", ⟨0, 0⟩⟩ ⟨1, 1⟩)
    (.BinaryExpr ⟨.Op .Star, "*", ⟨0, 6⟩⟩
      (.NumericLit ⟨.Atom .NumericLit, "2", ⟨0, 4⟩⟩ ⟨2, 1⟩)
      (.NumericLit ⟨.Atom .NumericLit, "3", ⟨0, 8⟩⟩ ⟨3, 1⟩))

/-- Witness for C1 at the accepted input `"1 + 2 * 3"`. -/
theorem c1_compile_execute_eq_tree_eval_witness :
    tokenize "1 + 2 * 3" = .ok c1_tokens ∧ parse c1_tokens = .ok c1_ast ∧
    ∃ (chunk : Chunk) (v : NumVal),
      compile_ast c1_ast Chunk.new = .ok chunk ∧
      treeEval c1_ast = some v ∧
      ∀ st : IState, (interpret_chunk chunk st).2 = .ok (some (.Number v)) := by
  refine ⟨by decide, by decide, ?_⟩
  exact c1_compile_execute_eq_tree_eval "1 + 2 * 3" c1_tokens c1_ast (by decide) (by decide)

/-- Counterexample to C2 as stated: evaluating `"1 + 2 * 3;"` through
the full pipeline does not succeed with `"7"` — the expression parser
stops at the semicolon and `Parser::parse`, expecting the end-of-input
token, rejects the program with `ExpectedEoF` at the `;` (row 0,
column 9), so `interpret` returns a parser error. -/
theorem c2_counterexample_trailing_semicolon :
    (interpret "1 + 2 * 3;" IState.new).2 =
      .err (.Compiler (.Parser (.ExpectedEoF ⟨.Delim .Semicolon, ";", ⟨0, 9⟩⟩))) ∧
    (interpret "1 + 2 * 3;" IState.new).2 ≠ .ok "7" := by
  refine ⟨by decide, by decide⟩

/-- The chunk compiled for `"1 + 2 * 3"`. -/
def c2_chunk : Chunk :=
  ⟨[0, 0, 0, 1, 0, 2, 3, 1],
   [.Number ⟨1, 1⟩, .Number ⟨2, 1⟩, .Number ⟨3, 1⟩],
   [⟨.Atom .NumericLit, "1", ⟨0, 0⟩⟩, ⟨.Atom .NumericLit, "1", ⟨0, 0⟩⟩,
    ⟨.Atom .NumericLit, "2", ⟨0, 4⟩⟩, ⟨.Atom .NumericLit, "2", ⟨0, 4⟩⟩,
    ⟨.Atom .NumericLit, "3", ⟨0, 8⟩⟩, ⟨.Atom .NumericLit, "3", ⟨0, 8⟩⟩,
    ⟨.Op .Star, "*", ⟨0, 6⟩⟩, ⟨.Op .Plus, "+", ⟨0, 2⟩⟩]⟩

/-- C2 as amended: without the trailing semicolon — an expression
program is followed directly by end-of-input in this grammar — the full
pipeline on `"1 + 2 * 3"` succeeds with result string `"7"`, and the
parsed AST is `1 + (2 * 3)`, i.e. star binds tighter than plus. -/
theorem c2_amended_no_trailing_semicolon :
    parse c1_tokens = .ok c1_ast ∧
    (interpret "1 + 2 * 3" IState.new).2 = .ok "7" := by
  refine ⟨by decide, ?_⟩
  have h1 : tokenize "1 + 2 * 3" = .ok c1_tokens := by decide
  have h2 : parse c1_tokens = .ok c1_ast := by decide
  have h3 : compile_ast c1_ast Chunk.new = .ok c2_chunk := by decide
  have h4 : interpret_chunk c2_chunk IState.new =
      (⟨[], [.Number ⟨7, 1⟩], 8⟩, .ok (some (.Number ⟨7, 1⟩))) := by decide
  simp only [interpret, compile, h1, h2, h3, h4]
  decide

/-- C3 is the spec's intent but the code fails it: the character
dispatch of `Lexer::tokenize` has no arm for letters (nor `'='`), so it
never reaches the keyword/identifier scanners and rejects
`"let x = 5;"` at the very first character with unexpected-character;
the dead `scan_keyword` would have produced the `let` keyword token. -/
theorem c3_tokenize_rejects_let :
    tokenize "let x = 5;" = .err (.UnexpectedCharacter "l" ⟨0, 0⟩) ∧
    scan_keyword "let x = 5;".data ⟨[], 0, 0, 0⟩ =
      .ok ⟨[⟨.Keyword .Let, "let", ⟨0, 0⟩⟩], 3, 0, 3⟩ ∧
    scan_identifier "let x = 5;".data ⟨[], 4, 0, 4⟩ =
      .ok ⟨[⟨.Atom .Identifier, "x", ⟨0, 4⟩⟩], 5, 0, 5⟩ := by
  refine ⟨by decide, by decide, by decide⟩

/-- C4: every chunk the compiler produces from any AST is well formed —
each operand-carrying instruction (`Constant`, and in the spec-modelled
variable arms `SetVar`/`GetVar`) is immediately followed by exactly one
operand word that is a valid constant-pool index, and the stream never
ends between an opcode and its operand — and consequently executing a
compiler-produced chunk never makes the VM's unchecked indexing
(`chunk.code[ip + 1]`, `chunk.constants[idx]`) go out of bounds. -/
theorem c4_compiled_chunk_wf :
    ∀ (ast : AstNode) (chunk : Chunk),
      compile_ast ast Chunk.new = .ok chunk →
      CodeWF chunk.constants.length chunk.code ∧
      ∀ st : IState, (interpret_chunk chunk st).2 ≠ .crash .indexOOB := by
  intro ast chunk h
  obtain ⟨hle, d, hcode, hwf⟩ := compile_ast_wf ast Chunk.new chunk h
  have hcw : CodeWF chunk.constants.length chunk.code := by
    rw [hcode]
    simpa using hwf
  refine ⟨hcw, ?_⟩
  intro st
  rw [interpret_chunk_res]
  exact runList_no_indexOOB hcw st.vars []

/-- Witness for C4 at the AST of `"1 + 2 * 3"`. -/
theorem c4_compiled_chunk_wf_witness :
    CodeWF c2_chunk.constants.length c2_chunk.code ∧
    ∀ st : IState, (interpret_chunk c2_chunk st).2 ≠ .crash .indexOOB := by
  exact c4_compiled_chunk_wf c1_ast c2_chunk (by decide)
